import Mathlib

/-!
Verification of the publisher-v2 pipeline (discovery.py, tag_converter.py,
link_processor.py, publisher.py) as a shallow embedding in Lean.

Python strings are modelled as Lean `String` (a structure over `List Char`);
all inputs of interest are ASCII, over which the external `inflection`
transliteration step is the identity.  External collaborators (git history,
filesystem timestamps, the image optimizer from the old publisher that is
not part of publisher-v2) are modelled as explicit function parameters at
their interface boundary.
-/

set_option autoImplicit false

/-! ### Python string primitives -/

/-- Model of Python `str.split(sep)` for a one-character separator, on
character lists: splits on every occurrence, keeping empty segments. -/
def pySplitChar (sep : Char) : List Char → List (List Char)
  | [] => [[]]
  | c :: cs =>
    match pySplitChar sep cs with
    | [] => [[]]
    | g :: gs => if c = sep then [] :: g :: gs else (c :: g) :: gs

/-- Inverse of `pySplitChar`: joins groups with the separator. -/
def joinChar (sep : Char) : List (List Char) → List Char
  | [] => []
  | [g] => g
  | g :: gs => g ++ sep :: joinChar sep gs

theorem pySplitChar_ne_nil (sep : Char) (cs : List Char) : pySplitChar sep cs ≠ [] := by
  cases cs with
  | nil => simp [pySplitChar]
  | cons c cs =>
    simp only [pySplitChar]
    cases h : pySplitChar sep cs with
    | nil => simp
    | cons g gs =>
      by_cases hc : c = sep <;> simp [hc]

theorem joinChar_pySplitChar (sep : Char) (cs : List Char) :
    joinChar sep (pySplitChar sep cs) = cs := by
  induction cs with
  | nil => rfl
  | cons c cs ih =>
    simp only [pySplitChar]
    cases h : pySplitChar sep cs with
    | nil => exact absurd h (pySplitChar_ne_nil sep cs)
    | cons g gs =>
      rw [h] at ih
      by_cases hc : c = sep
      · subst hc
        simpa [joinChar] using ih
      · simp only [if_neg hc]
        cases gs with
        | nil => simpa [joinChar] using congrArg (c :: ·) ih
        | cons g2 gs2 => simpa [joinChar] using congrArg (c :: ·) ih

/-- Python `tag.split('/')`, producing `String` segments. -/
def pySplit (sep : Char) (s : String) : List String :=
  (pySplitChar sep s.data).map (⟨·⟩)

/-- Python `sep.join(parts)` for a one-character separator. -/
def pyJoin (sep : Char) (parts : List String) : String :=
  ⟨joinChar sep (parts.map String.data)⟩

/-- Python `s.endswith(suffix)`. -/
def pyEndsWith (s suf : String) : Bool :=
  suf.data.isSuffixOf s.data

/-- Python `s.startswith(pre)`. -/
def pyStartsWith (s pre : String) : Bool :=
  pre.data.isPrefixOf s.data

/-- Drop the last `n` characters of a string. -/
def chopEnd (s : String) (n : Nat) : String :=
  ⟨s.data.take (s.data.length - n)⟩

/-- Python `s.strip(chars)` restricted to the call site `item.strip('[]')`:
removes leading and trailing `[` and `]` characters. -/
def pyStripBrackets (s : String) : String :=
  let isBr := fun c => c = '[' ∨ c = ']'
  ⟨((s.data.dropWhile (fun c => decide (isBr c))).reverse.dropWhile
      (fun c => decide (isBr c))).reverse⟩

/-- Python `s.strip()` (whitespace at both ends). -/
def pyStrip (s : String) : String :=
  ⟨((s.data.dropWhile Char.isWhitespace).reverse.dropWhile Char.isWhitespace).reverse⟩

/-- Python `s.capitalize()`: first character uppercased, the rest lowercased. -/
def pyCapitalize (s : String) : String :=
  match s.data with
  | [] => ⟨[]⟩
  | c :: cs => ⟨c.toUpper :: cs.map Char.toLower⟩

/-- Python `s.lower()` (ASCII). -/
def pyLower (s : String) : String :=
  ⟨s.data.map Char.toLower⟩

/-- Python `s.upper()` (ASCII). -/
def pyUpper (s : String) : String :=
  ⟨s.data.map Char.toUpper⟩

/-- Python `s.replace('.webp', '.png')`: replaces every (non-overlapping,
left-to-right) occurrence, as used by `_clean_orphaned_images`. -/
def webpToPngChars : List Char → List Char
  | '.' :: 'w' :: 'e' :: 'b' :: 'p' :: cs => '.' :: 'p' :: 'n' :: 'g' :: webpToPngChars cs
  | c :: cs => c :: webpToPngChars cs
  | [] => []

def webpToPng (s : String) : String :=
  ⟨webpToPngChars s.data⟩

/-! ### inflection.parameterize

`inflection.parameterize(s)`: transliterate (identity on ASCII), replace every
maximal run of characters outside `[a-zA-Z0-9-_]` by a single `-`, collapse
runs of `-`, strip one leading and one trailing `-`, and lowercase. -/

/-- Characters kept by `inflection.parameterize`'s character class. -/
def paramCharOk (c : Char) : Bool :=
  ('a' ≤ c && c ≤ 'z') || ('A' ≤ c && c ≤ 'Z') || ('0' ≤ c && c ≤ '9') || c = '-' || c = '_'

/-- Replace each maximal run of disallowed characters by a single `-`
(the `re.sub(r"(?i)[^a-z0-9\-_]+", '-', s)` step).  `inBad` records whether
the scanner is inside a run that already emitted its `-`. -/
def squashBadAux : Bool → List Char → List Char
  | _, [] => []
  | inBad, c :: cs =>
    if paramCharOk c then c :: squashBadAux false cs
    else if inBad then squashBadAux true cs
    else '-' :: squashBadAux true cs

def squashBad (cs : List Char) : List Char := squashBadAux false cs

/-- Collapse runs of the separator `-` to a single `-`
(the `re.sub(r'-{2,}', '-', s)` step). -/
def collapseSepAux : Bool → List Char → List Char
  | _, [] => []
  | afterDash, c :: cs =>
    if c = '-' then
      if afterDash then collapseSepAux true cs
      else '-' :: collapseSepAux true cs
    else c :: collapseSepAux false cs

def collapseSep (cs : List Char) : List Char := collapseSepAux false cs

/-- Strip one leading and one trailing `-` (the `re.sub(r"^-|-$", '', s)` step). -/
def stripSepEnds (cs : List Char) : List Char :=
  let cs1 := match cs with
    | '-' :: r => r
    | r => r
  match cs1.reverse with
  | '-' :: r => r.reverse
  | _ => cs1

/-- `inflection.parameterize` (separator `-`), faithful for ASCII input. -/
def parameterize (s : String) : String :=
  ⟨(stripSepEnds (collapseSep (squashBad s.data))).map Char.toLower⟩

/-! ### inflection.singularize

Faithful model of `inflection.singularize` for lowercase ASCII words:
the uncountable check followed by the ordered SINGULARS rule list. -/

def uncountables : List String :=
  ["equipment", "fish", "information", "jeans", "money", "rice", "series", "sheep", "species"]

/-- Word-boundary suffix test used by the uncountable check
(`re.search(r"(?i)\b(word)\Z", s)`). -/
def uncountableHit (w u : String) : Bool :=
  w = u ||
    (pyEndsWith w u &&
      match (w.data.take (w.data.length - u.data.length)).getLast? with
      | some c => !(c.isAlphanum || c = '_')
      | none => false)

/-- One character before a given suffix, if any. -/
def charBefore (w : String) (sufLen : Nat) : Option Char :=
  (w.data.take (w.data.length - sufLen)).getLast?

/-- `inflection.singularize`, rule by rule in source order (lowercase ASCII). -/
def singularize (w : String) : String :=
  if uncountables.any (fun u => uncountableHit w u) then w
  else if pyEndsWith w "databases" then chopEnd w 1
  else if pyEndsWith w "quizzes" then chopEnd w 3
  else if pyEndsWith w "matrices" then chopEnd w 4 ++ "ix"
  else if pyEndsWith w "vertices" || pyEndsWith w "indices" then chopEnd w 4 ++ "ex"
  else if pyStartsWith w "oxen" then "ox" ++ ⟨w.data.drop 4⟩
  else if pyEndsWith w "aliases" || pyEndsWith w "statuses" then chopEnd w 2
  else if pyEndsWith w "alias" || pyEndsWith w "status" then w
  else if pyEndsWith w "octopus" || pyEndsWith w "virus" then w
  else if pyEndsWith w "octopi" || pyEndsWith w "viri" then chopEnd w 1 ++ "us"
  else if w = "axis" || w = "axes" then "axis"
  else if pyEndsWith w "crisis" || pyEndsWith w "testis" then w
  else if pyEndsWith w "crises" || pyEndsWith w "testes" then chopEnd w 2 ++ "is"
  else if pyEndsWith w "shoes" then chopEnd w 1
  else if pyEndsWith w "oes" then chopEnd w 2
  else if pyEndsWith w "buses" then chopEnd w 2
  else if pyEndsWith w "bus" then w
  else if pyEndsWith w "mice" || pyEndsWith w "lice" then chopEnd w 3 ++ "ouse"
  else if pyEndsWith w "xes" || pyEndsWith w "ches" || pyEndsWith w "sses" || pyEndsWith w "shes" then
    chopEnd w 2
  else if pyEndsWith w "movies" then chopEnd w 1
  else if pyEndsWith w "series" then w
  else if pyEndsWith w "quies" ||
      (pyEndsWith w "ies" &&
        match charBefore w 3 with
        | some c => !(c = 'a' || c = 'e' || c = 'i' || c = 'o' || c = 'u' || c = 'y')
        | none => false) then
    chopEnd w 3 ++ "y"
  else if pyEndsWith w "lves" || pyEndsWith w "rves" then chopEnd w 3 ++ "f"
  else if pyEndsWith w "tives" then chopEnd w 1
  else if pyEndsWith w "hives" then chopEnd w 1
  else if pyEndsWith w "ves" &&
      (match charBefore w 3 with
       | some c => !(c = 'f')
       | none => false) then
    chopEnd w 3 ++ "fe"
  else if pyEndsWith w "thesis" || pyEndsWith w "synopsis" || pyEndsWith w "prognosis" ||
      pyEndsWith w "parenthesis" || pyEndsWith w "diagnosis" then w
  else if pyEndsWith w "theses" then chopEnd w 6 ++ "thesis"
  else if pyEndsWith w "synopses" then chopEnd w 8 ++ "synopsis"
  else if pyEndsWith w "prognoses" then chopEnd w 9 ++ "prognosis"
  else if pyEndsWith w "parentheses" then chopEnd w 11 ++ "parenthesis"
  else if pyEndsWith w "diagnoses" then chopEnd w 9 ++ "diagnosis"
  else if pyEndsWith w "basis" then w
  else if pyEndsWith w "bases" then chopEnd w 5 ++ "basis"
  else if pyEndsWith w "analysis" then w
  else if pyEndsWith w "analyses" then chopEnd w 3 ++ "sis"
  else if pyEndsWith w "ta" || pyEndsWith w "ia" then chopEnd w 1 ++ "um"
  else if pyEndsWith w "news" then w
  else if pyEndsWith w "ss" then w
  else if pyEndsWith w "s" then chopEnd w 1
  else w

/-! ### discovery.py -/

/-- Shape of the `tags` value in a note's parsed frontmatter: absent, a single
string, a list (elements already normalized to strings), or any other YAML
value (which `extract_tags` ignores). -/
inductive TagsDecl where
  | absent
  | single (s : String)
  | strs (l : List String)
  | other
deriving DecidableEq

/-- `NoteDiscovery.extract_tags`: collects tags into a set (modelled as a
deduplicated list; only membership is meaningful downstream). -/
def extract_tags : TagsDecl → List String
  | .absent => []
  | .single s => [s]
  | .strs l => l.dedup
  | .other => []

/-- `NoteDiscovery.is_publishable`, at the level of the parsed frontmatter's
tag declaration: required-tag check first, then excluded-tag check. -/
def is_publishable (required excluded : List String) (fm : TagsDecl) : Bool × String :=
  let tags := extract_tags fm
  if !(required.any (fun t => tags.contains t)) then
    (false, "Missing required tags: " ++ String.intercalate ", " required)
  else
    let excludedFound := excluded.filter (fun t => tags.contains t)
    if excludedFound.isEmpty then (true, "OK")
    else (false, "Contains excluded tags: " ++ String.intercalate ", " excludedFound)

/-! ### tag_converter.py : parse_hierarchical_tag -/

/-- Result dictionary of `TagConverter.parse_hierarchical_tag`; keys that a
branch does not set are `none`. `root` and `leaf` are set on every branch. -/
structure ParsedTag where
  root : String
  leaf : String
  full_tag : Option String := none
  domain : Option String := none
  subdomain : Option String := none
  subsubdomain : Option String := none
  typ : Option String := none
  status : Option String := none
  full_path : Option String := none
deriving DecidableEq

/-- `TagConverter.parse_hierarchical_tag`. -/
def parse_hierarchical_tag (tag : String) : ParsedTag :=
  let parts := pySplit '/' tag
  if parts.length < 2 then
    { root := parts.headI, leaf := parts.headI }
  else
    let root := parts.headI
    if root = "domain" then
      { root := root, leaf := parts.getLastD "", full_tag := some tag,
        domain := parts.get? 1, subdomain := parts.get? 2, subsubdomain := parts.get? 3,
        full_path := some (if parts.length > 2 then pyJoin '/' parts.dropLast else tag) }
    else if root = "type" then
      { root := root, leaf := parts.getLastD "", full_tag := some tag, typ := parts.get? 1 }
    else if root = "status" then
      { root := root, leaf := parts.getLastD "", full_tag := some tag, status := parts.get? 1 }
    else
      { root := root, leaf := parts.getLastD "", full_tag := some tag }

/-! ### tag_converter.py : topic, categories, series -/

/-- The fixed generic-term set in `TagConverter.tag_to_topic`. -/
def generic_terms : List String :=
  ["analysis", "complexity", "theory", "general", "miscellaneous", "optimization", "design"]

/-- `TagConverter.tag_to_topic`. -/
def tag_to_topic (tag : String) : String :=
  let parsed := parse_hierarchical_tag tag
  let leaf := parsed.leaf
  let subdomain := parsed.subdomain.getD ""
  let domain := parsed.domain.getD ""
  let topic :=
    if generic_terms.contains (pyLower leaf) then
      if subdomain ≠ "" && pyLower subdomain ≠ pyLower leaf then
        parameterize (singularize subdomain ++ "-" ++ leaf)
      else if domain ≠ "" then
        parameterize (singularize domain ++ "-" ++ leaf)
      else
        parameterize leaf
    else
      parameterize leaf
  pyJoin '-' ((pySplit '-' topic).map pyCapitalize)

/-- Model of `inflection.titleize` for ASCII input: underscore (hyphens to
underscores, lowercase), humanize (drop a trailing `_id`, underscores to
spaces, capitalize the first letter), then uppercase the first lowercase
letter of every word. -/
def titleCap : Bool → List Char → List Char
  | _, [] => []
  | atBoundary, c :: cs =>
    if atBoundary && ('a' ≤ c && c ≤ 'z') then c.toUpper :: titleCap false cs
    else c :: titleCap (!(c.isAlphanum || c = '_')) cs

def titleize (w : String) : String :=
  let u := (pyLower w).data.map (fun c => if c = '-' then '_' else c)
  let u := if "_id".data.isSuffixOf u then u.take (u.length - 3) else u
  let sp := u.map (fun c => if c = '_' then ' ' else c)
  ⟨titleCap true sp⟩

/-- Value of one entry of the `domain_mappings` configuration table. -/
structure DomainMapping where
  category : String := ""
  subcategories : List String := []
deriving DecidableEq

/-- The tag-converter part of the configuration. -/
structure TagCfg where
  domain_mappings : List (String × DomainMapping) := []
  type_mappings : List (String × String) := []
deriving DecidableEq

/-- `TagConverter.get_categories_from_tag`. -/
def get_categories_from_tag (cfg : TagCfg) (tag : String) : List String :=
  let parsed := parse_hierarchical_tag tag
  if parsed.root ≠ "domain" then []
  else
    let parts := pySplit '/' tag
    let variants := ((List.range' 2 (parts.length - 1)).reverse).map (fun i => pyJoin '/' (parts.take i))
    match variants.find? (fun v => (cfg.domain_mappings.lookup v).isSome) with
    | some v =>
      match cfg.domain_mappings.lookup v with
      | some m => (if m.category ≠ "" then [m.category] else []) ++ m.subcategories
      | none => []
    | none =>
      (match parsed.domain with | some d => [pyUpper d] | none => []) ++
        (match parsed.subdomain with | some sd => [titleize sd] | none => [])

/-- `TagConverter.get_series_from_tag`. -/
def get_series_from_tag (cfg : TagCfg) (tag : String) : Option String :=
  match cfg.type_mappings.lookup tag with
  | some s => some s
  | none =>
    let parsed := parse_hierarchical_tag tag
    if parsed.root = "type" then
      match parsed.typ with
      | some t => if t ≠ "" then some (titleize t) else none
      | none => none
    else none

/-- Code-point lexicographic comparison (Python string `<=`). -/
def lexLe : List Char → List Char → Bool
  | [], _ => true
  | _ :: _, [] => false
  | a :: as, b :: bs =>
    if a.toNat < b.toNat then true
    else if b.toNat < a.toNat then false
    else lexLe as bs

def strLe (a b : String) : Bool := lexLe a.data b.data

/-- Insertion sort on strings; agrees with Python `sorted` (stable,
ascending code-point order). -/
def insertSorted (s : String) : List String → List String
  | [] => [s]
  | t :: ts => if strLe s t then s :: t :: ts else t :: insertSorted s ts

def sortStrings (l : List String) : List String := l.foldr insertSorted []

/-- Output of `TagConverter.convert_tags`. -/
structure Taxonomies where
  topics : List String
  categories : List String
  series : List String
deriving DecidableEq

/-- `TagConverter.convert_tags`: the Python sets, as sorted deduplicated
lists (`sorted(set(..))`). -/
def convert_tags (cfg : TagCfg) (tags : List String) : Taxonomies :=
  let isDomain := fun t => (parse_hierarchical_tag t).root = "domain"
  let isType := fun t => (parse_hierarchical_tag t).root = "type"
  let isStatus := fun t => (parse_hierarchical_tag t).root = "status"
  { topics := sortStrings
      (((tags.filter (fun t => isDomain t || (!isType t && !isStatus t))).map tag_to_topic).dedup),
    categories := sortStrings
      (((tags.filter (fun t => isDomain t)).flatMap (get_categories_from_tag cfg)).dedup),
    series := sortStrings
      (((tags.filter (fun t => isType t)).filterMap (get_series_from_tag cfg)).dedup) }

/-! ### frontmatter mappings -/

/-- A YAML scalar/list value in a frontmatter mapping.  A Python `datetime`
value is modelled by its `strftime('%Y-%m-%d %H:%M:%S%z')` rendering. -/
inductive YVal where
  | str (s : String)
  | strs (l : List String)
  | dt (rendered : String)
  | other
deriving DecidableEq

/-- A frontmatter mapping: keys in insertion order, unique. -/
abbrev FM := List (String × YVal)

/-- Python `dict.pop(k, None)`. -/
def fmErase (fm : FM) (k : String) : FM := fm.filter (fun p => p.1 ≠ k)

/-- Python `dict[k] = v`: update in place if present, else append. -/
def fmInsert (fm : FM) (k : String) (v : YVal) : FM :=
  if (fm.lookup k).isSome then fm.map (fun p => if p.1 = k then (k, v) else p)
  else fm ++ [(k, v)]

/-- `TagConverter.enhance_frontmatter`. -/
def enhance_frontmatter (cfg : TagCfg) (fm : FM) (tags : List String) : FM :=
  let tax := convert_tags cfg tags
  let e := fmErase (fmErase fm "related") "tags"
  let e := if tax.topics ≠ [] then fmInsert e "topics" (.strs tax.topics) else e
  let e := if tax.categories ≠ [] then fmInsert e "categories" (.strs tax.categories) else e
  let e := if tax.series ≠ [] then fmInsert e "series" (.str tax.series.headI) else e
  e

/-! ### link_processor.py

The three regex passes are modelled by deterministic left-to-right scanners.
For each of the patterns involved the greedy character-class runs make the
Python regex engine deterministic (the classes exclude the closing
delimiters), so a scanner that takes the maximal run and then checks the
closing delimiters, advancing one character on failure, is faithful to
`re.findall` / `re.sub` semantics. -/

/-- Matcher for the tail of `\[\[([^\]|]+)(?:\|[^\]]+)?\]\]` after the two
opening brackets: returns the captured target and the remaining input. -/
def wlTryMatchA (cs : List Char) : Option (List Char × List Char) :=
  let tgt := cs.takeWhile (fun c => c ≠ ']' && c ≠ '|')
  let r1 := cs.drop tgt.length
  if tgt.isEmpty then none
  else
    match r1 with
    | '|' :: r2 =>
      let al := r2.takeWhile (fun c => c ≠ ']')
      let r3 := r2.drop al.length
      if al.isEmpty then none
      else
        match r3 with
        | ']' :: ']' :: r4 => some (tgt, r4)
        | _ => none
    | ']' :: ']' :: r4 => some (tgt, r4)
    | _ => none

/-- Matcher for the tail of `\[\[([^\]]+)\]\]` after the two opening
brackets: returns the captured inner text and the remaining input. -/
def wlTryMatchB (cs : List Char) : Option (List Char × List Char) :=
  let inner := cs.takeWhile (fun c => c ≠ ']')
  let r1 := cs.drop inner.length
  if inner.isEmpty then none
  else
    match r1 with
    | ']' :: ']' :: r2 => some (inner, r2)
    | _ => none

theorem wlTryMatchA_length {cs t r : List Char} (h : wlTryMatchA cs = some (t, r)) :
    r.length < cs.length := by
  unfold wlTryMatchA at h
  dsimp only at h
  have hkey : ∀ (n : Nat) (r' : List Char), cs.drop n = r' → r'.length ≤ cs.length := by
    intro n r' hdrop
    have := List.length_drop n cs
    rw [hdrop] at this
    omega
  split at h
  · exact absurd h (by simp)
  · split at h
    · -- alias branch: cs.drop _ = '|' :: r2
      rename_i r2 heq1
      split at h
      · exact absurd h (by simp)
      · split at h
        · rename_i r4 heq2
          injection h with h1
          injection h1 with ht hr
          subst hr
          have l1 := hkey _ _ heq1
          have l2 : (r2.drop ((r2.takeWhile (fun c => c ≠ ']')).length)).length ≤ r2.length := by
            have := List.length_drop ((r2.takeWhile (fun c => c ≠ ']')).length) r2
            omega
          rw [heq2] at l2
          simp only [List.length_cons] at l1 l2 ⊢
          omega
        · exact absurd h (by simp)
    · -- no-alias branch: cs.drop _ = ']' :: ']' :: r4
      rename_i r4 heq1
      injection h with h1
      injection h1 with ht hr
      subst hr
      have l1 := hkey _ _ heq1
      simp only [List.length_cons] at l1
      omega
    · exact absurd h (by simp)

theorem wlTryMatchB_length {cs t r : List Char} (h : wlTryMatchB cs = some (t, r)) :
    r.length < cs.length := by
  unfold wlTryMatchB at h
  dsimp only at h
  split at h
  · exact absurd h (by simp)
  · split at h
    · rename_i r2 heq1
      injection h with h1
      injection h1 with ht hr
      subst hr
      have := List.length_drop ((cs.takeWhile (fun c => c ≠ ']')).length) cs
      rw [heq1] at this
      simp only [List.length_cons] at this
      omega
    · exact absurd h (by simp)

/-- `LinkProcessor.extract_wikilinks` scanner: all captures of
`\[\[([^\]|]+)(?:\|[^\]]+)?\]\]`, left to right, non-overlapping.  The
`fuel` argument only makes the recursion structural; any `fuel ≥ length`
gives the same result. -/
def extractWLAux : Nat → List Char → List (List Char)
  | 0, _ => []
  | fuel + 1, cs =>
    match cs with
    | '[' :: '[' :: rest =>
      match wlTryMatchA rest with
      | some (tgt, rest') => tgt :: extractWLAux fuel rest'
      | none => extractWLAux fuel ('[' :: rest)
    | _ :: rest => extractWLAux fuel rest
    | [] => []

def extractWikilinksChars (cs : List Char) : List (List Char) :=
  extractWLAux cs.length cs

/-- `LinkProcessor.extract_wikilinks`: the set of pre-slugging targets
(a Python set, modelled as a deduplicated list; only membership is
meaningful). -/
def extract_wikilinks (content : String) : List String :=
  ((extractWikilinksChars content.data).map (fun l => (⟨l⟩ : String))).dedup

/-- `LinkProcessor.convert_wikilink`: replacement text for one match of
`(?<!!)\[\[([^\]]+)\]\]` with captured group `inner`. -/
def convert_wikilink (inner : List Char) : List Char :=
  let parts := pySplitChar '|' inner
  let target := pyStrip ⟨parts.headI⟩
  let aliasTxt := match parts.get? 1 with
    | some a => pyStrip ⟨a⟩
    | none => target
  ("[" ++ aliasTxt ++ "](/blog/" ++ parameterize target ++ ")").data

/-- `re.sub(r'(?<!!)\[\[([^\]]+)\]\]', convert_wikilink, content)` scanner;
`prev` is the character just before the scan position (for the lookbehind). -/
def substWLAux : Nat → Option Char → List Char → List Char
  | 0, _, _ => []
  | fuel + 1, prev, cs =>
    match cs with
    | '[' :: '[' :: rest =>
      if prev = some '!' then '[' :: substWLAux fuel (some '[') ('[' :: rest)
      else
        match wlTryMatchB rest with
        | some (inner, rest') => convert_wikilink inner ++ substWLAux fuel (some ']') rest'
        | none => '[' :: substWLAux fuel (some '[') ('[' :: rest)
    | c :: rest => c :: substWLAux fuel (some c) rest
    | [] => []

def substWikilinks (prev : Option Char) (cs : List Char) : List Char :=
  substWLAux cs.length prev cs

/-- `LinkProcessor.process_wikilinks`: rewritten content plus the
referenced-notes set. -/
def process_wikilinks (content : String) : String × List String :=
  (⟨substWikilinks none content.data⟩, extract_wikilinks content)

/-- Scanner for all captures of `!\[\[([^\]]+)\]\]`. -/
def extractILAux : Nat → List Char → List (List Char)
  | 0, _ => []
  | fuel + 1, cs =>
    match cs with
    | '!' :: '[' :: '[' :: rest =>
      match wlTryMatchB rest with
      | some (inner, rest') => inner :: extractILAux fuel rest'
      | none => extractILAux fuel ('[' :: '[' :: rest)
    | _ :: rest => extractILAux fuel rest
    | [] => []

def extractImageLinksChars (cs : List Char) : List (List Char) :=
  extractILAux cs.length cs

/-- `pathlib.Path(name).stem`: last `/`-component, with the final extension
removed when the last dot is at an interior position. -/
def pathStem (name : String) : String :=
  let comp := (pySplit '/' name).getLastD ""
  let cs := comp.data
  match cs.reverse.findIdx? (· = '.') with
  | none => comp
  | some j =>
    let i := cs.length - 1 - j
    if 0 < i ∧ i < cs.length - 1 then ⟨cs.take i⟩ else comp

/-- `LinkProcessor.convert_image_link`: replacement text for one match of
`!\[\[([^\]]+)\]\]`. -/
def convert_image_link (inner : List Char) : List Char :=
  let slug := parameterize (pathStem ⟨inner⟩)
  ("![" ++ slug ++ "](/images/" ++ slug ++ ".webp)").data

/-- `re.sub(r'!\[\[([^\]]+)\]\]', ..., content)` scanner. -/
def substILAux : Nat → List Char → List Char
  | 0, _ => []
  | fuel + 1, cs =>
    match cs with
    | '!' :: '[' :: '[' :: rest =>
      match wlTryMatchB rest with
      | some (inner, rest') => convert_image_link inner ++ substILAux fuel rest'
      | none => '!' :: substILAux fuel ('[' :: '[' :: rest)
    | c :: rest => c :: substILAux fuel rest
    | [] => []

def substImageLinks (cs : List Char) : List Char :=
  substILAux cs.length cs

/-- `LinkProcessor.process_images`: rewritten content plus the
image-dependency set (original filenames, with extension; a Python set,
modelled as a deduplicated list). -/
def process_images (content : String) : String × List String :=
  (⟨substImageLinks content.data⟩,
    ((extractImageLinksChars content.data).map (fun l => (⟨l⟩ : String))).dedup)

/-- One entry of the `related` list: the link line, or `none` when the entry
is skipped (self-reference or already linked in the body). -/
def relatedLink (noteSlug : String) (alreadyLinked : List String) (item : String) : Option String :=
  let noteName := (pySplit '|' (pyStripBrackets item)).headI
  let slug := parameterize noteName
  if slug = noteSlug then none
  else if alreadyLinked.contains noteName then none
  else some ("- [" ++ noteName ++ "](/blog/" ++ slug ++ ")")

/-- `LinkProcessor.generate_related_section`.  `related?` is the parsed
`related` frontmatter list (`none` when the key is absent). -/
def generate_related_section (enableRelated : Bool) (related? : Option (List String))
    (noteSlug : String) (alreadyLinked : List String) : String :=
  if !enableRelated then ""
  else
    let related := related?.getD []
    if related.isEmpty then ""
    else
      let links := related.filterMap (relatedLink noteSlug alreadyLinked)
      if links.isEmpty then ""
      else "\n\n---\n\n## Related Reading\n\n" ++ String.intercalate "\n" links ++ "\n"

/-! ### publisher.py : dates -/

def isDigitChar (c : Char) : Bool := '0' ≤ c && c ≤ '9'

def natOfDigits (cs : List Char) : Nat :=
  cs.foldl (fun n c => n * 10 + (c.toNat - '0'.toNat)) 0

def isLeap (y : Nat) : Bool := (y % 4 = 0 && y % 100 ≠ 0) || y % 400 = 0

def daysInMonth (y m : Nat) : Nat :=
  if m = 2 then (if isLeap y then 29 else 28)
  else if m = 4 || m = 6 || m = 9 || m = 11 then 30
  else 31

def pad2 (n : Nat) : String := if n < 10 then "0" ++ toString n else toString n

/-- `datetime.strptime(s, '%Y-%m-%d')` followed by
`strftime('%Y-%m-%d %H:%M:%S%z')` (no timezone on the parsed value, so `%z`
renders empty): `none` when parsing raises. -/
def parseYmd (s : String) : Option String :=
  match pySplit '-' s with
  | [ys, ms, ds] =>
    if ys.data.length = 4 && ys.data.all isDigitChar &&
        1 ≤ ms.data.length && ms.data.length ≤ 2 && ms.data.all isDigitChar &&
        1 ≤ ds.data.length && ds.data.length ≤ 2 && ds.data.all isDigitChar then
      let y := natOfDigits ys.data
      let m := natOfDigits ms.data
      let d := natOfDigits ds.data
      if 1 ≤ y && 1 ≤ m && m ≤ 12 && 1 ≤ d && d ≤ daysInMonth y m then
        some (toString y ++ "-" ++ pad2 m ++ "-" ++ pad2 d ++ " 00:00:00")
      else none
    else none
  | _ => none

/-- External collaborators of the publisher, at their interface boundary. -/
structure Env where
  /-- Publication date recorded at `HEAD` of the website repo for an output
  file `slug.md`, i.e. the result of `git show` plus frontmatter parsing:
  the `date` value when one is found, `none` for every failure (no repo,
  `git show` error, unparsable frontmatter, missing `date` key). -/
  historyDate : String → Option YVal
  /-- Per-note creation date from `git log --follow` (already reformatted):
  `Except.error` models an exception anywhere in the lookup or reparse. -/
  gitLog : String → Except Unit (Option String)
  /-- Filesystem ctime fallback for a note, formatted. -/
  ctime : String → String
  /-- Files the external image optimizer (the old publisher, outside this
  package) writes into the media directory for one source image.
  Modelled from the spec: the optimizer "produces one or more encoded
  output files at the destination". -/
  optimizerOutput : String → List String
  /-- Whether a given image dependency is found in the configured search
  directories. -/
  imageFound : String → Bool

/-- `Publisher.get_creation_date`. -/
def get_creation_date (env : Env) (now : String) (stem : String) : String :=
  match env.gitLog stem with
  | .error _ => now
  | .ok none => env.ctime stem
  | .ok (some d) => d

/-- The `created`-or-now part of `Publisher.get_original_publication_date`
(everything after the existing-output branch). -/
def createdDate (created? : Option YVal) (now : String) : String :=
  match created? with
  | some (.str s) =>
    match parseYmd s with
    | some fmt => fmt
    | none => s
  | some (.dt d) => d
  | some _ => now
  | none => now

/-- `Publisher.get_original_publication_date`. -/
def get_original_publication_date (env : Env) (now : String) (outputExists : Bool)
    (slug : String) (created? : Option YVal) : String :=
  let fallback := createdDate created? now
  if outputExists then
    match env.historyDate slug with
    | some (.str s) => s
    | some (.dt d) => d
    | _ => fallback
  else fallback

/-! ### publisher.py : process_note and publish_all -/

/-- A source note, as parsed by `NoteDiscovery.get_note_metadata` (a missing
or malformed frontmatter block yields empty metadata).  `procFails` models
an exception raised while processing this note, which `process_note`
catches and reports as a failure. -/
structure Note where
  stem : String
  title? : Option String := none
  tagsDecl : TagsDecl := .absent
  related? : Option (List String) := none
  created? : Option YVal := none
  content : String := ""
  procFails : Bool := false
deriving DecidableEq

/-- The configuration fields the pipeline reads. -/
structure Config where
  required_tags : List String := []
  excluded_tags : List String := []
  enable_related_reading : Bool := true
  optimize_images : Bool := true
  tagCfg : TagCfg := {}
deriving DecidableEq

/-- The state the pipeline mutates: the destination content directory and
the destination media directory (file name to content; media by name). -/
structure FS where
  content : List (String × String) := []
  images : List String := []
deriving DecidableEq

def fsLookup (files : List (String × String)) (name : String) : Option String :=
  (files.find? (fun p => p.1 = name)).map (fun p => p.2)

/-- Opening a file for writing: overwrite in place, or create. -/
def fsWrite (files : List (String × String)) (name : String) (doc : String) :
    List (String × String) :=
  if (files.find? (fun p => p.1 = name)).isSome then
    files.map (fun p => if p.1 = name then (name, doc) else p)
  else files ++ [(name, doc)]

/-- `frontmatter.get('title', metadata['stem'])`. -/
def noteTitle (n : Note) : String := n.title?.getD n.stem

/-- `inflection.parameterize(title)`: the slug derivation shared by
`process_note` and `_clean_orphaned_files`. -/
def slugOf (n : Note) : String := parameterize (noteTitle n)

/-- Model of the external `titlecase` collaborator at its interface:
capitalizes each space-separated word (no claim depends on its output). -/
def titlecaseModel (s : String) : String :=
  pyJoin ' ' ((pySplit ' ' s).map pyCapitalize)

/-- `titlecase.titlecase(title).replace(';', ':')`. -/
def displayTitle (title : String) : String :=
  ⟨(titlecaseModel title).data.map (fun c => if c = ';' then ':' else c)⟩

/-- `tag.replace('/', '-')`. -/
def urlSafeTag (t : String) : String :=
  ⟨t.data.map (fun c => if c = '/' then '-' else c)⟩

/-- The `enhanced_frontmatter` dictionary built by `process_note`
(insertion order: `tags` when non-empty, then `date`, `doc`, `title`,
`author`). -/
def written_frontmatter (env : Env) (now : String) (outputExists : Bool) (n : Note) : FM :=
  let tags := extract_tags n.tagsDecl
  let domain_tags := tags.filter (fun t => (parse_hierarchical_tag t).root = "domain")
  let slug := slugOf n
  (if !domain_tags.isEmpty then
      [("tags", YVal.strs (sortStrings (domain_tags.map urlSafeTag)))]
    else []) ++
    [("date", YVal.str (get_original_publication_date env now outputExists slug n.created?)),
     ("doc", YVal.str (get_creation_date env now n.stem)),
     ("title", YVal.str (displayTitle (noteTitle n))),
     ("author", YVal.str "Kishore Kumar")]

/-- Model of `yaml.dump(fm, default_flow_style=False)` (keys sorted, the
default `sort_keys=True`): a fixed deterministic block rendering. -/
def yamlDump (fm : FM) : String :=
  String.join ((sortStrings (fm.map (fun p => p.1))).map (fun k =>
    match fm.lookup k with
    | some (.str s) => k ++ ": " ++ s ++ "\n"
    | some (.strs l) => k ++ ":\n" ++ String.join (l.map (fun x => "- " ++ x ++ "\n"))
    | some (.dt d) => k ++ ": " ++ d ++ "\n"
    | some .other => k ++ ": ~\n"
    | none => ""))

/-- The processed body `process_note` writes: wikilink pass, then image
pass, then the optional related-reading section. -/
def note_body (cfg : Config) (n : Note) : String :=
  let pw := process_wikilinks n.content
  let pi := process_images pw.1
  let relatedSection :=
    if cfg.enable_related_reading then
      generate_related_section true n.related? (slugOf n) pw.2
    else ""
  pi.1 ++ relatedSection

/-- The full output document `process_note` writes for a note. -/
def note_doc (cfg : Config) (env : Env) (now : String) (outputExists : Bool) (n : Note) : String :=
  "---\n" ++ yamlDump (written_frontmatter env now outputExists n) ++ "---\n" ++ note_body cfg n

/-- The media files `_process_images` leaves in the media directory for a
note (nothing when optimization is disabled or a dependency is missing). -/
def note_images (cfg : Config) (env : Env) (n : Note) : List String :=
  if cfg.optimize_images then
    (process_images (process_wikilinks n.content).1).2.flatMap
      (fun i => if env.imageFound i then env.optimizerOutput i else [])
  else []

/-- `Publisher.process_note`: returns the updated filesystem and the
success flag (`false` when processing raises). -/
def process_note (cfg : Config) (env : Env) (now : String) (fs : FS) (n : Note) : FS × Bool :=
  if n.procFails then (fs, false)
  else
    let name := slugOf n ++ ".md"
    let outputExists := (fsLookup fs.content name).isSome
    ({ content := fsWrite fs.content name (note_doc cfg env now outputExists n),
       images := (fs.images ++ note_images cfg env n).dedup }, true)

/-- The valid output names `_clean_orphaned_files` computes from the
current eligible notes (same title-to-slug derivation as `process_note`). -/
def current_slug_files (notes : List Note) : List String :=
  notes.map (fun n => slugOf n ++ ".md")

/-- `Publisher._clean_orphaned_files`: delete every `*.md` output not in
the current slug set. -/
def clean_orphaned_files (notes : List Note) (files : List (String × String)) :
    List (String × String) :=
  let current := current_slug_files notes
  files.filter (fun p => !(pyEndsWith p.1 ".md") || current.contains p.1)

/-- Matcher for the tail of `!\[[^\]]*\]\(/images/([^)]+)\)` after `![`. -/
def imgTryMatch (cs : List Char) : Option (List Char × List Char) :=
  let r1 := cs.drop (cs.takeWhile (fun c => c ≠ ']')).length
  if "](/images/".data.isPrefixOf r1 then
    let r2 := r1.drop 10
    let ref := r2.takeWhile (fun c => c ≠ ')')
    if ref.isEmpty then none
    else
      match r2.drop ref.length with
      | ')' :: r4 => some (ref, r4)
      | _ => none
  else none

theorem imgTryMatch_length {cs t r : List Char} (h : imgTryMatch cs = some (t, r)) :
    r.length < cs.length := by
  unfold imgTryMatch at h
  dsimp only at h
  split at h
  · rename_i hpre
    have hr1len : (cs.drop (cs.takeWhile (fun c => c ≠ ']')).length).length ≤ cs.length := by
      have := List.length_drop (cs.takeWhile (fun c => c ≠ ']')).length cs
      omega
    have hpre10 : (10 : Nat) ≤ (cs.drop (cs.takeWhile (fun c => c ≠ ']')).length).length := by
      have hp : ("](/images/".data : List Char) <+:
          cs.drop (cs.takeWhile (fun c => c ≠ ']')).length := by
        exact List.isPrefixOf_iff_prefix.mp hpre
      have := hp.length_le
      simpa using this
    split at h
    · simp at h
    · rename_i hne
      split at h
      · rename_i r4 heq
        injection h with h1
        injection h1 with ht hr
        subst hr
        have hlen2 := List.length_drop
          (((cs.drop (cs.takeWhile (fun c => c ≠ ']')).length).drop 10).takeWhile
            (fun c => c ≠ ')')).length
          ((cs.drop (cs.takeWhile (fun c => c ≠ ']')).length).drop 10)
        rw [heq] at hlen2
        simp only [List.length_cons, List.length_drop] at hlen2 hr1len hpre10 ⊢
        omega
      · simp at h
  · simp at h

/-- Scanner for `re.findall(r'!\[[^\]]*\]\(/images/([^)]+)\)', content)`. -/
def imageRefsAux : Nat → List Char → List (List Char)
  | 0, _ => []
  | fuel + 1, cs =>
    match cs with
    | '!' :: '[' :: rest =>
      match imgTryMatch rest with
      | some (ref, rest') => ref :: imageRefsAux fuel rest'
      | none => imageRefsAux fuel ('[' :: rest)
    | _ :: rest => imageRefsAux fuel rest
    | [] => []

def imageRefsChars (cs : List Char) : List (List Char) :=
  imageRefsAux cs.length cs

/-- The still-referenced media identifiers `_clean_orphaned_images`
collects from one output document (each match, plus the `.png` fallback
for `.webp` matches). -/
def imageRefsWithFallback (content : String) : List String :=
  (imageRefsChars content.data).flatMap (fun m =>
    let s : String := ⟨m⟩
    if pyEndsWith s ".webp" then [s, webpToPng s] else [s])

/-- The full referenced-media set over all `*.md` output documents. -/
def referencedImages (files : List (String × String)) : List String :=
  files.flatMap (fun p => if pyEndsWith p.1 ".md" then imageRefsWithFallback p.2 else [])

/-- The media extensions `_clean_orphaned_images` scans. -/
def scanned_ext (name : String) : Bool :=
  pyEndsWith name ".webp" || pyEndsWith name ".png" || pyEndsWith name ".jpg" ||
    pyEndsWith name ".jpeg" || pyEndsWith name ".gif"

/-- `Publisher._clean_orphaned_images`. -/
def clean_orphaned_images (fs : FS) : FS :=
  let referenced := referencedImages fs.content
  { fs with images := fs.images.filter (fun i => !scanned_ext i || referenced.contains i) }

/-- `Publisher.publish_all`: discovery, per-note processing, then the two
reconciliation sweeps.  Returns the filesystem unchanged when no note is
eligible (early return) or in dry-run mode. -/
def publish_all (cfg : Config) (env : Env) (now : String) (dryRun : Bool)
    (notes : List Note) (fs : FS) : FS :=
  let publishable := notes.filter
    (fun n => (is_publishable cfg.required_tags cfg.excluded_tags n.tagsDecl).1)
  if publishable.isEmpty then fs
  else if dryRun then fs
  else
    let fs1 := publishable.foldl (fun acc n => (process_note cfg env now acc n).1) fs
    let fs2 : FS := { content := clean_orphaned_files publishable fs1.content, images := fs1.images }
    clean_orphaned_images fs2

/-! ### Shared helper lemmas -/

theorem contains_mem_iff (l : List String) (a : String) : l.contains a = true ↔ a ∈ l :=
  List.elem_iff

theorem map_id_of_eq {α : Type} (f : α → α) (l : List α) (h : ∀ x, f x = x) : l.map f = l := by
  induction l with
  | nil => rfl
  | cons a l ih => simp [h, ih]

theorem map_id_of_mem {α : Type} (f : α → α) (l : List α) (h : ∀ x ∈ l, f x = x) :
    l.map f = l := by
  induction l with
  | nil => rfl
  | cons a l ih =>
    rw [List.map_cons, h a (List.mem_cons_self _ _),
      ih (fun x hx => h x (List.mem_cons_of_mem _ hx))]

theorem pySplit_map_data (sep : Char) (s : String) :
    (pySplit sep s).map String.data = pySplitChar sep s.data := by
  unfold pySplit
  rw [List.map_map]
  exact map_id_of_eq _ _ (fun x => rfl)

theorem joinChar_concat (sep : Char) (M : List (List Char)) (g : List Char) (hM : M ≠ []) :
    joinChar sep (M ++ [g]) = joinChar sep M ++ sep :: g := by
  induction M with
  | nil => exact absurd rfl hM
  | cons a M ih =>
    cases M with
    | nil => simp [joinChar]
    | cons b M2 =>
      have h2 := ih (by simp)
      show joinChar sep (a :: ((b :: M2) ++ [g])) = joinChar sep (a :: b :: M2) ++ sep :: g
      have e1 : joinChar sep (a :: ((b :: M2) ++ [g])) =
          a ++ sep :: joinChar sep ((b :: M2) ++ [g]) := by
        simp [joinChar]
      have e2 : joinChar sep (a :: b :: M2) = a ++ sep :: joinChar sep (b :: M2) := by
        simp [joinChar]
      rw [e1, e2, h2]
      simp

/-! ### Claim C3 -/

/-- C3: `is_publishable` returns eligible (`True`) iff the document's
extracted tag set intersects the required-tag set and does not intersect
the excluded-tag set; consequently a document carrying both a required tag
and an excluded tag is never eligible. -/
theorem is_publishable_eligibility (required excluded : List String) (fm : TagsDecl) :
    ((is_publishable required excluded fm).1 = true ↔
      ((∃ t ∈ required, t ∈ extract_tags fm) ∧ ∀ t ∈ excluded, t ∉ extract_tags fm)) ∧
    ((∃ r ∈ required, r ∈ extract_tags fm) → (∃ e ∈ excluded, e ∈ extract_tags fm) →
      (is_publishable required excluded fm).1 = false) := by
  have key : (is_publishable required excluded fm).1 = true ↔
      ((∃ t ∈ required, t ∈ extract_tags fm) ∧ ∀ t ∈ excluded, t ∉ extract_tags fm) := by
    unfold is_publishable
    dsimp only
    by_cases h1 : required.any (fun t => (extract_tags fm).contains t) = true
    · rw [if_neg (by rw [h1]; decide)]
      by_cases h2 : (excluded.filter (fun t => (extract_tags fm).contains t)).isEmpty = true
      · rw [if_pos h2]
        simp only [List.any_eq_true, contains_mem_iff] at h1
        simp only [List.isEmpty_iff, List.filter_eq_nil_iff, contains_mem_iff] at h2
        simp only [true_iff]
        exact ⟨h1, h2⟩
      · rw [if_neg h2]
        simp only [List.isEmpty_iff, List.filter_eq_nil_iff, contains_mem_iff] at h2
        push_neg at h2
        constructor
        · intro h; exact absurd h (by simp)
        · rintro ⟨-, hexc⟩
          obtain ⟨t, ht, hpt⟩ := h2
          exact absurd hpt (hexc t ht)
    · rw [if_pos (by rw [Bool.not_eq_true] at h1; rw [h1]; decide)]
      simp only [List.any_eq_true, contains_mem_iff] at h1
      push_neg at h1
      constructor
      · intro h; exact absurd h (by simp)
      · rintro ⟨⟨t, ht, htm⟩, -⟩
        exact absurd htm (h1 t ht)
  refine ⟨key, fun hreq hexc => ?_⟩
  rw [Bool.eq_false_iff]
  intro htrue
  obtain ⟨-, hnone⟩ := key.mp htrue
  obtain ⟨e, he, hem⟩ := hexc
  exact hnone e he hem

/-- C3 witness: a document tagged with both a required and an excluded tag
is not eligible. -/
theorem is_publishable_eligibility_witness :
    (is_publishable ["status/evergreen"] ["status/draft"]
      (TagsDecl.strs ["status/evergreen", "status/draft", "domain/cs"])).1 = false :=
  (is_publishable_eligibility ["status/evergreen"] ["status/draft"]
      (TagsDecl.strs ["status/evergreen", "status/draft", "domain/cs"])).2
    (by decide) (by decide)

/-! ### Claim C7 -/

/-- C7: evaluation of `tag_to_topic` at the two scenario tags.  The first
scenario holds; the second does not: the code produces `Math-Analysis`,
because `inflection.singularize("math")` is `"math"`, while the code's own
comment (`domain/math/analysis -> "mathematical-analysis"`) and the spec
expect `Mathematical-Analysis`. -/
theorem tag_to_topic_scenarios :
    tag_to_topic "domain/cs/algorithms/analysis" = "Algorithm-Analysis" ∧
    tag_to_topic "domain/math/analysis" = "Math-Analysis" ∧
    tag_to_topic "domain/math/analysis" ≠ "Mathematical-Analysis" := by
  have h1 : tag_to_topic "domain/cs/algorithms/analysis" = "Algorithm-Analysis" := by rfl
  have h2 : tag_to_topic "domain/math/analysis" = "Math-Analysis" := by rfl
  exact ⟨h1, h2, by rw [h2]; decide⟩

/-! ### Claim C8 -/

/-- C8 counterexample: `type/a/b` has three segments, yet
`parse_hierarchical_tag` sets no `full_path` key (only the `domain` branch
does), so the claimed reconstruction is impossible for it. -/
theorem parse_tag_full_path_missing :
    (pySplit '/' "type/a/b").length = 3 ∧
    (parse_hierarchical_tag "type/a/b").full_path = none ∧
    (parse_hierarchical_tag "type/a/b").leaf = "b" := by
  refine ⟨by rfl, by rfl, by rfl⟩

/-- C8 (amended): for every tag string with at least two `/`-separated
segments, `leaf` is the final segment; and when the segment count exceeds
two AND the root segment is `domain` (the only branch that sets
`full_path`), `full_path ++ "/" ++ leaf` reconstructs the tag. -/
theorem parse_tag_round_trip (tag : String)
    (h2 : 2 ≤ (pySplit '/' tag).length) :
    (parse_hierarchical_tag tag).leaf = (pySplit '/' tag).getLastD "" ∧
    ((pySplit '/' tag).headI = "domain" → 2 < (pySplit '/' tag).length →
      ∃ fp, (parse_hierarchical_tag tag).full_path = some fp ∧
        fp ++ "/" ++ (parse_hierarchical_tag tag).leaf = tag) := by
  have hlen : ¬ (pySplit '/' tag).length < 2 := by omega
  have leaf_eq : (parse_hierarchical_tag tag).leaf = (pySplit '/' tag).getLastD "" := by
    unfold parse_hierarchical_tag
    dsimp only
    rw [if_neg hlen]
    by_cases hdom : (pySplit '/' tag).headI = "domain"
    · rw [if_pos hdom]
    · rw [if_neg hdom]
      by_cases hty : (pySplit '/' tag).headI = "type"
      · rw [if_pos hty]
      · rw [if_neg hty]
        by_cases hst : (pySplit '/' tag).headI = "status"
        · rw [if_pos hst]
        · rw [if_neg hst]
  refine ⟨leaf_eq, fun hd h3 => ?_⟩
  have hfp : (parse_hierarchical_tag tag).full_path =
      some (pyJoin '/' (pySplit '/' tag).dropLast) := by
    unfold parse_hierarchical_tag
    dsimp only
    rw [if_neg hlen, if_pos hd]
    dsimp only
    rw [if_pos h3]
  refine ⟨pyJoin '/' (pySplit '/' tag).dropLast, hfp, ?_⟩
  rw [leaf_eq]
  obtain ⟨M, g, hMg⟩ : ∃ M g, pySplitChar '/' tag.data = M ++ [g] := by
    rcases List.eq_nil_or_concat (pySplitChar '/' tag.data) with h | ⟨M, g, h⟩
    · exact absurd h (pySplitChar_ne_nil '/' tag.data)
    · exact ⟨M, g, by simpa [List.concat_eq_append] using h⟩
  have hparts : pySplit '/' tag = (M.map (fun l => (⟨l⟩ : String))) ++ [⟨g⟩] := by
    unfold pySplit
    rw [hMg, List.map_append]
    rfl
  have hMne : M ≠ [] := by
    intro hM0
    rw [hparts, hM0] at h3
    simp at h3
  apply String.ext
  rw [hparts, List.dropLast_concat, List.getLastD_concat]
  show (pyJoin '/' (M.map (fun l => (⟨l⟩ : String)))).data ++ "/".data ++ g = tag.data
  have hjoin : (pyJoin '/' (M.map (fun l => (⟨l⟩ : String)))).data = joinChar '/' M := by
    unfold pyJoin
    rw [List.map_map]
    exact congrArg (joinChar '/') (map_id_of_eq _ M (fun x => rfl))
  rw [hjoin]
  have hcat := joinChar_concat '/' M g hMne
  rw [show "/".data = ['/'] from rfl, List.append_assoc]
  show joinChar '/' M ++ '/' :: g = tag.data
  rw [← hcat, ← hMg, joinChar_pySplitChar]

/-- C8 witness: the amended round trip at `domain/cs/algorithms/analysis`. -/
theorem parse_tag_round_trip_witness :
    (parse_hierarchical_tag "domain/cs/algorithms/analysis").leaf =
      (pySplit '/' "domain/cs/algorithms/analysis").getLastD "" ∧
    ∃ fp, (parse_hierarchical_tag "domain/cs/algorithms/analysis").full_path = some fp ∧
      fp ++ "/" ++ (parse_hierarchical_tag "domain/cs/algorithms/analysis").leaf =
        "domain/cs/algorithms/analysis" :=
  ⟨(parse_tag_round_trip "domain/cs/algorithms/analysis" (by decide)).1,
    (parse_tag_round_trip "domain/cs/algorithms/analysis" (by decide)).2 (by decide) (by decide)⟩

/-! ### Claim C4 -/

/-- C4: `get_original_publication_date` resolves in strict priority order:
(1) a date recovered from the previously published output's historical
record (string dates verbatim, datetime values via their rendering), with
every failure of this step (modelled by `none`, and by non-date values)
falling through silently; otherwise (2) the source metadata's `created`
value — reformatted when it parses as a plain `%Y-%m-%d` date, passed
through unmodified when it is a string that fails to parse, rendered when
it is a datetime; otherwise (3) the current timestamp. -/
theorem pub_date_priority (env : Env) (now slug : String) (created? : Option YVal) :
    (∀ s, env.historyDate slug = some (.str s) →
      get_original_publication_date env now true slug created? = s) ∧
    (∀ d, env.historyDate slug = some (.dt d) →
      get_original_publication_date env now true slug created? = d) ∧
    (env.historyDate slug = none →
      get_original_publication_date env now true slug created? = createdDate created? now) ∧
    (get_original_publication_date env now false slug created? = createdDate created? now) ∧
    (∀ s fmt, created? = some (.str s) → parseYmd s = some fmt →
      createdDate created? now = fmt) ∧
    (∀ s, created? = some (.str s) → parseYmd s = none → createdDate created? now = s) ∧
    (∀ d, created? = some (.dt d) → createdDate created? now = d) ∧
    (created? = none → createdDate created? now = now) := by
  refine ⟨?_, ?_, ?_, ?_, ?_, ?_, ?_, ?_⟩
  · intro s h; simp [get_original_publication_date, h]
  · intro d h; simp [get_original_publication_date, h]
  · intro h; simp [get_original_publication_date, h]
  · simp [get_original_publication_date]
  · intro s fmt h hp; simp [createdDate, h, hp]
  · intro s h hp; simp [createdDate, h, hp]
  · intro d h; simp [createdDate, h]
  · intro h; simp [createdDate, h]

/-- Environment for the C4 witness: no recoverable history. -/
def envHistNone : Env :=
  { historyDate := fun _ => none, gitLog := fun _ => .ok none, ctime := fun _ => "",
    optimizerOutput := fun _ => [], imageFound := fun _ => false }

/-- C4 witness: with an existing output but no recoverable history, an
unparsable `created` string is passed through unmodified. -/
theorem pub_date_priority_witness :
    get_original_publication_date envHistNone "NOW" true "s" (some (.str "Jan 2021")) = "Jan 2021" := by
  have h := pub_date_priority envHistNone "NOW" "s" (some (.str "Jan 2021"))
  rw [h.2.2.1 rfl]
  exact h.2.2.2.2.2.1 "Jan 2021" rfl (by rfl)

/-! ### Claim C9 -/

/-- C9: `generate_related_section` skips exactly the entries whose slug is
the document's own slug or whose display name (the pre-alias portion of the
bracket-stripped entry) is already in the cross-reference set; it renders
the remaining entries as bulleted markdown links under the fixed heading
preceded by a horizontal rule; and it returns the empty string whenever the
feature is disabled, the `related` field is absent or empty, or no entries
remain. -/
theorem related_section_spec (enabled : Bool) (related? : Option (List String))
    (noteSlug : String) (already : List String) :
    (∀ item, relatedLink noteSlug already item = none ↔
      (parameterize ((pySplit '|' (pyStripBrackets item)).headI) = noteSlug ∨
        ((pySplit '|' (pyStripBrackets item)).headI) ∈ already)) ∧
    (∀ item s, relatedLink noteSlug already item = some s →
      s = "- [" ++ (pySplit '|' (pyStripBrackets item)).headI ++ "](/blog/" ++
        parameterize ((pySplit '|' (pyStripBrackets item)).headI) ++ ")") ∧
    (generate_related_section enabled related? noteSlug already = "" ↔
      (enabled = false ∨ related?.getD [] = [] ∨
        (related?.getD []).filterMap (relatedLink noteSlug already) = [])) ∧
    (enabled = true → (related?.getD []).filterMap (relatedLink noteSlug already) ≠ [] →
      generate_related_section enabled related? noteSlug already =
        "\n\n---\n\n## Related Reading\n\n" ++
          String.intercalate "\n" ((related?.getD []).filterMap (relatedLink noteSlug already)) ++
          "\n") := by
  have hskip : ∀ item, relatedLink noteSlug already item = none ↔
      (parameterize ((pySplit '|' (pyStripBrackets item)).headI) = noteSlug ∨
        ((pySplit '|' (pyStripBrackets item)).headI) ∈ already) := by
    intro item
    unfold relatedLink
    dsimp only
    by_cases h1 : parameterize ((pySplit '|' (pyStripBrackets item)).headI) = noteSlug
    · rw [if_pos h1]; simp [h1]
    · rw [if_neg h1]
      by_cases h2 : already.contains ((pySplit '|' (pyStripBrackets item)).headI) = true
      · rw [if_pos h2]
        simp only [contains_mem_iff] at h2
        simp [h1, h2]
      · rw [if_neg h2]
        simp only [contains_mem_iff] at h2
        simp [h1, h2]
  have hsome : ∀ item s, relatedLink noteSlug already item = some s →
      s = "- [" ++ (pySplit '|' (pyStripBrackets item)).headI ++ "](/blog/" ++
        parameterize ((pySplit '|' (pyStripBrackets item)).headI) ++ ")" := by
    intro item s h
    unfold relatedLink at h
    dsimp only at h
    split at h
    · exact absurd h (by simp)
    · split at h
      · exact absurd h (by simp)
      · injection h with h1
        exact h1.symm
  have hnonempty : ("\n\n---\n\n## Related Reading\n\n" ++
      String.intercalate "\n" ((related?.getD []).filterMap (relatedLink noteSlug already)) ++
      "\n" : String) ≠ "" := by
    intro hcontra
    have := congrArg String.data hcontra
    simp only [show ∀ a b : String, (a ++ b).data = a.data ++ b.data from fun a b => rfl] at this
    simp [List.append_eq_nil] at this
  refine ⟨hskip, hsome, ?_, ?_⟩
  · unfold generate_related_section
    dsimp only
    by_cases he : enabled
    · rw [he]
      simp only [Bool.not_true, if_neg (by decide : ¬ (false = true))]
      by_cases hr : (related?.getD []).isEmpty = true
      · rw [if_pos hr]
        simp only [List.isEmpty_iff] at hr
        simp [hr]
      · rw [if_neg hr]
        simp only [List.isEmpty_iff] at hr
        by_cases hl : ((related?.getD []).filterMap (relatedLink noteSlug already)).isEmpty = true
        · rw [if_pos hl]
          simp only [List.isEmpty_iff] at hl
          simp [hl, hr]
        · rw [if_neg hl]
          simp only [List.isEmpty_iff] at hl
          constructor
          · intro hcontra; exact absurd hcontra hnonempty
          · rintro (h | h | h)
            · exact absurd h (by decide)
            · exact absurd h hr
            · exact absurd h hl
    · simp only [Bool.not_eq_true] at he
      rw [he]
      simp [he]
  · intro he hl
    unfold generate_related_section
    rw [he]
    dsimp only
    rw [if_neg (by decide : ¬ (!true) = true)]
    rw [if_neg (by
      intro hcontra
      simp only [List.isEmpty_iff] at hcontra
      exact hl (by simp [hcontra]))]
    rw [if_neg (by simpa [List.isEmpty_iff] using hl)]

/-- C9 witness: one self-reference and one already-linked entry are
skipped; the remaining entry renders under the fixed heading. -/
theorem related_section_spec_witness :
    generate_related_section true (some ["[[A]]", "[[B|x]]", "[[C]]"]) "b" ["C"] =
      "\n\n---\n\n## Related Reading\n\n- [A](/blog/a)\n" := by
  have h := (related_section_spec true (some ["[[A]]", "[[B|x]]", "[[C]]"]) "b" ["C"]).2.2.2
    rfl (by decide)
  rw [h]
  rfl

/-! ### Claim C5 -/

/-- Environment for the C5 evidence. -/
def envC5 : Env :=
  { historyDate := fun _ => none, gitLog := fun _ => .ok (some "G"), ctime := fun _ => "",
    optimizerOutput := fun _ => [], imageFound := fun _ => false }

/-- Note for the C5 evidence: a domain tag, a type tag, and a `related`
field, so all three derived taxonomy lists are non-empty. -/
def noteC5 : Note :=
  { stem := "N",
    tagsDecl := .strs ["domain/cs/algorithms/analysis", "type/zettelkasten", "status/evergreen"],
    related? := some ["[[A]]"] }

/-- C5 counterexample: for a note whose derived topics, categories and
series are all non-empty, the metadata mapping actually written by
`process_note` contains none of the `topics`/`categories`/`series` keys —
`enhance_frontmatter`, which would inject them, is never called on the
write path (it would, as the last conjunct shows). -/
theorem written_frontmatter_missing_taxonomies :
    (convert_tags {} (extract_tags noteC5.tagsDecl)).topics = ["Algorithm-Analysis"] ∧
    (convert_tags {} (extract_tags noteC5.tagsDecl)).series = ["Zettelkasten"] ∧
    (convert_tags {} (extract_tags noteC5.tagsDecl)).categories ≠ [] ∧
    (written_frontmatter envC5 "NOW" false noteC5).lookup "topics" = none ∧
    (written_frontmatter envC5 "NOW" false noteC5).lookup "categories" = none ∧
    (written_frontmatter envC5 "NOW" false noteC5).lookup "series" = none ∧
    (enhance_frontmatter {} [("related", .strs ["[[A]]"]), ("tags", .other)]
        (extract_tags noteC5.tagsDecl)).lookup "topics" =
      some (.strs ["Algorithm-Analysis"]) := by
  refine ⟨by rfl, by rfl, by decide, by rfl, by rfl, by rfl, by rfl⟩

/-- C5 (amended): the mapping `process_note` writes is a fresh mapping —
it contains no `related` key and no raw `tags` key (the `tags` key it may
contain holds the URL-safe sorted domain tags, only when that list is
non-empty), no `topics`/`categories`/`series` keys, and exactly the
publication date (`date`), creation date (`doc`), display title (`title`)
and author fields; the topics/categories/series injection described by the
spec lives in `enhance_frontmatter`, which the write path does not call. -/
theorem written_frontmatter_spec (env : Env) (now : String) (oe : Bool) (n : Note) :
    (written_frontmatter env now oe n).lookup "related" = none ∧
    ((written_frontmatter env now oe n).lookup "tags" =
      if ((extract_tags n.tagsDecl).filter
          (fun t => (parse_hierarchical_tag t).root = "domain")).isEmpty then none
      else some (.strs (sortStrings (((extract_tags n.tagsDecl).filter
          (fun t => (parse_hierarchical_tag t).root = "domain")).map urlSafeTag)))) ∧
    (written_frontmatter env now oe n).lookup "topics" = none ∧
    (written_frontmatter env now oe n).lookup "categories" = none ∧
    (written_frontmatter env now oe n).lookup "series" = none ∧
    (written_frontmatter env now oe n).lookup "date" =
      some (.str (get_original_publication_date env now oe (slugOf n) n.created?)) ∧
    (written_frontmatter env now oe n).lookup "doc" =
      some (.str (get_creation_date env now n.stem)) ∧
    (written_frontmatter env now oe n).lookup "title" =
      some (.str (displayTitle (noteTitle n))) ∧
    (written_frontmatter env now oe n).lookup "author" = some (.str "Kishore Kumar") ∧
    (written_frontmatter env now oe n).map (fun p => p.1) =
      (if ((extract_tags n.tagsDecl).filter
          (fun t => (parse_hierarchical_tag t).root = "domain")).isEmpty then []
        else ["tags"]) ++ ["date", "doc", "title", "author"] := by
  unfold written_frontmatter
  dsimp only
  by_cases h : ((extract_tags n.tagsDecl).filter
      (fun t => (parse_hierarchical_tag t).root = "domain")).isEmpty = true
  · simp only [h, Bool.not_true, Bool.false_eq_true, if_false, if_true, List.nil_append]
    exact ⟨rfl, rfl, rfl, rfl, rfl, rfl, rfl, rfl, rfl, rfl⟩
  · rw [Bool.not_eq_true] at h
    simp only [h, Bool.not_false, Bool.false_eq_true, if_false, if_true]
    exact ⟨rfl, rfl, rfl, rfl, rfl, rfl, rfl, rfl, rfl, rfl⟩

/-! ### Claim C6 : scanner lemmas -/

theorem extractWLAux_nil (f : Nat) : extractWLAux f [] = [] := by
  cases f <;> rfl

theorem substWLAux_nil (f : Nat) (prev : Option Char) : substWLAux f prev [] = [] := by
  cases f <;> rfl


theorem extractWLAux_succ_bb (f : Nat) (rest : List Char) :
    extractWLAux (f + 1) ('[' :: '[' :: rest) =
      match wlTryMatchA rest with
      | some (tgt, rest') => tgt :: extractWLAux f rest'
      | none => extractWLAux f ('[' :: rest) := rfl

theorem extractWLAux_succ_other (f : Nat) (c : Char) (rest : List Char)
    (h : ∀ r2, c :: rest ≠ '[' :: '[' :: r2) :
    extractWLAux (f + 1) (c :: rest) = extractWLAux f rest := by
  show (match (c :: rest : List Char) with
    | '[' :: '[' :: rest =>
      match wlTryMatchA rest with
      | some (tgt, rest') => tgt :: extractWLAux f rest'
      | none => extractWLAux f ('[' :: rest)
    | _ :: rest => extractWLAux f rest
    | [] => []) = extractWLAux f rest
  split
  · rename_i r2 heq
    exact absurd heq (h r2)
  · rename_i c' rest' x heq
    injection heq with e1 e2
    rw [e2]
  · rename_i heq
    cases heq

theorem extractWLAux_fuel : ∀ (f1 f2 : Nat) (cs : List Char),
    cs.length ≤ f1 → cs.length ≤ f2 → extractWLAux f1 cs = extractWLAux f2 cs := by
  intro f1
  induction f1 with
  | zero =>
    intro f2 cs h1 h2
    have : cs = [] := List.length_eq_zero.mp (Nat.le_zero.mp h1)
    subst this
    rw [extractWLAux_nil, extractWLAux_nil]
  | succ f1 ih =>
    intro f2 cs h1 h2
    cases cs with
    | nil => rw [extractWLAux_nil, extractWLAux_nil]
    | cons c rest =>
      cases f2 with
      | zero => simp at h2
      | succ f2 =>
        simp only [List.length_cons] at h1 h2
        by_cases hbb : ∃ r2, c :: rest = '[' :: '[' :: r2
        · obtain ⟨r2, heq⟩ := hbb
          have hlen : rest.length = r2.length + 1 := by
            have := congrArg List.length heq
            simpa using this
          rw [heq, extractWLAux_succ_bb, extractWLAux_succ_bb]
          cases hm : wlTryMatchA r2 with
          | some pr =>
            obtain ⟨tgt, rest'⟩ := pr
            have hlt := wlTryMatchA_length hm
            simp only
            rw [ih f2 rest' (by omega) (by omega)]
          | none =>
            simp only
            rw [ih f2 ('[' :: r2) (by simp; omega) (by simp; omega)]
        · push_neg at hbb
          rw [extractWLAux_succ_other f1 c rest hbb, extractWLAux_succ_other f2 c rest hbb]
          exact ih f2 rest (by omega) (by omega)

theorem substWLAux_succ_bb (f : Nat) (prev : Option Char) (rest : List Char) :
    substWLAux (f + 1) prev ('[' :: '[' :: rest) =
      if prev = some '!' then '[' :: substWLAux f (some '[') ('[' :: rest)
      else
        match wlTryMatchB rest with
        | some (inner, rest') => convert_wikilink inner ++ substWLAux f (some ']') rest'
        | none => '[' :: substWLAux f (some '[') ('[' :: rest) := rfl

theorem substWLAux_succ_other (f : Nat) (prev : Option Char) (c : Char) (rest : List Char)
    (h : ∀ r2, c :: rest ≠ '[' :: '[' :: r2) :
    substWLAux (f + 1) prev (c :: rest) = c :: substWLAux f (some c) rest := by
  show (match (c :: rest : List Char) with
    | '[' :: '[' :: rest =>
      if prev = some '!' then '[' :: substWLAux f (some '[') ('[' :: rest)
      else
        match wlTryMatchB rest with
        | some (inner, rest') => convert_wikilink inner ++ substWLAux f (some ']') rest'
        | none => '[' :: substWLAux f (some '[') ('[' :: rest)
    | c :: rest => c :: substWLAux f (some c) rest
    | [] => []) = c :: substWLAux f (some c) rest
  split
  · rename_i r2 heq
    exact absurd heq (h r2)
  · rename_i c' rest' x heq
    injection heq with e1 e2
    rw [e1, e2]
  · rename_i heq
    cases heq

theorem substWLAux_fuel : ∀ (f1 f2 : Nat) (prev : Option Char) (cs : List Char),
    cs.length ≤ f1 → cs.length ≤ f2 → substWLAux f1 prev cs = substWLAux f2 prev cs := by
  intro f1
  induction f1 with
  | zero =>
    intro f2 prev cs h1 h2
    have : cs = [] := List.length_eq_zero.mp (Nat.le_zero.mp h1)
    subst this
    rw [substWLAux_nil, substWLAux_nil]
  | succ f1 ih =>
    intro f2 prev cs h1 h2
    cases cs with
    | nil => rw [substWLAux_nil, substWLAux_nil]
    | cons c rest =>
      cases f2 with
      | zero => simp at h2
      | succ f2 =>
        simp only [List.length_cons] at h1 h2
        by_cases hbb : ∃ r2, c :: rest = '[' :: '[' :: r2
        · obtain ⟨r2, heq⟩ := hbb
          have hlen : rest.length = r2.length + 1 := by
            have := congrArg List.length heq
            simpa using this
          rw [heq, substWLAux_succ_bb, substWLAux_succ_bb]
          by_cases hp : prev = some '!'
          · rw [if_pos hp, if_pos hp, ih f2 (some '[') ('[' :: r2) (by simp; omega) (by simp; omega)]
          · rw [if_neg hp, if_neg hp]
            cases hm : wlTryMatchB r2 with
            | some pr =>
              obtain ⟨inner, rest'⟩ := pr
              have hlt := wlTryMatchB_length hm
              simp only
              rw [ih f2 (some ']') rest' (by omega) (by omega)]
            | none =>
              simp only
              rw [ih f2 (some '[') ('[' :: r2) (by simp; omega) (by simp; omega)]
        · push_neg at hbb
          rw [substWLAux_succ_other f1 prev c rest hbb, substWLAux_succ_other f2 prev c rest hbb]
          rw [ih f2 (some c) rest (by omega) (by omega)]

theorem substWikilinks_nil (prev : Option Char) : substWikilinks prev [] = [] := rfl

theorem extractWikilinksChars_nil : extractWikilinksChars [] = [] := rfl

theorem substWikilinks_other (prev : Option Char) (c : Char) (rest : List Char)
    (h : ∀ r2, c :: rest ≠ '[' :: '[' :: r2) :
    substWikilinks prev (c :: rest) = c :: substWikilinks (some c) rest := by
  unfold substWikilinks
  rw [show (c :: rest).length = rest.length + 1 from rfl, substWLAux_succ_other _ _ _ _ h]

theorem extractWikilinksChars_other (c : Char) (rest : List Char)
    (h : ∀ r2, c :: rest ≠ '[' :: '[' :: r2) :
    extractWikilinksChars (c :: rest) = extractWikilinksChars rest := by
  unfold extractWikilinksChars
  rw [show (c :: rest).length = rest.length + 1 from rfl, extractWLAux_succ_other _ _ _ h]

theorem substWikilinks_match (prev : Option Char) (rest inner rest' : List Char)
    (hp : prev ≠ some '!') (hm : wlTryMatchB rest = some (inner, rest')) :
    substWikilinks prev ('[' :: '[' :: rest) =
      convert_wikilink inner ++ substWikilinks (some ']') rest' := by
  unfold substWikilinks
  rw [show ('[' :: '[' :: rest).length = rest.length + 2 from rfl]
  rw [show rest.length + 2 = (rest.length + 1) + 1 from rfl, substWLAux_succ_bb]
  rw [if_neg hp, hm]
  dsimp only
  have hlt := wlTryMatchB_length hm
  rw [substWLAux_fuel (rest.length + 1) rest'.length (some ']') rest' (by omega) (by omega)]

theorem substWikilinks_blocked (rest : List Char) :
    substWikilinks (some '!') ('[' :: '[' :: rest) =
      '[' :: substWikilinks (some '[') ('[' :: rest) := by
  unfold substWikilinks
  rw [show ('[' :: '[' :: rest).length = (rest.length + 1) + 1 from rfl, substWLAux_succ_bb]
  rw [if_pos rfl]
  rw [substWLAux_fuel (rest.length + 1) ('[' :: rest).length (some '[') ('[' :: rest)
    (by simp) (by simp)]

theorem extractWikilinksChars_match (rest tgt rest' : List Char)
    (hm : wlTryMatchA rest = some (tgt, rest')) :
    extractWikilinksChars ('[' :: '[' :: rest) = tgt :: extractWikilinksChars rest' := by
  unfold extractWikilinksChars
  rw [show ('[' :: '[' :: rest).length = (rest.length + 1) + 1 from rfl, extractWLAux_succ_bb]
  rw [hm]
  dsimp only
  have hlt := wlTryMatchA_length hm
  rw [extractWLAux_fuel (rest.length + 1) rest'.length rest' (by omega) (by omega)]

/-- The lookbehind character after scanning a segment `s` starting from
`prev`: the last character of `s`, or `prev` when `s` is empty. -/
def lastOpt (s : List Char) (prev : Option Char) : Option Char :=
  match s.getLast? with
  | some c => some c
  | none => prev

theorem substWikilinks_txt (s : List Char) (hs : '[' ∉ s) (prev : Option Char) (r : List Char) :
    substWikilinks prev (s ++ r) = s ++ substWikilinks (lastOpt s prev) r := by
  induction s generalizing prev with
  | nil => simp [lastOpt]
  | cons c s ih =>
    have hc : c ≠ '[' := fun h => hs (h ▸ List.mem_cons_self c s)
    have hs' : '[' ∉ s := fun h => hs (List.mem_cons_of_mem c h)
    rw [List.cons_append, substWikilinks_other prev c (s ++ r)
      (fun r2 h => by injection h with e1 e2; exact hc e1)]
    rw [ih hs' (some c)]
    have hlast : lastOpt (c :: s) prev = lastOpt s (some c) := by
      cases s with
      | nil => rfl
      | cons d s2 =>
        obtain ⟨e, he⟩ : ∃ e, (d :: s2).getLast? = some e := by
          cases hgl2 : (d :: s2).getLast? with
          | some e => exact ⟨e, rfl⟩
          | none => exact absurd hgl2 (by simp)
        unfold lastOpt
        rw [List.getLast?_cons_cons, he]
    rw [hlast]
    rfl

theorem extractWikilinksChars_txt (s : List Char) (hs : '[' ∉ s) (r : List Char) :
    extractWikilinksChars (s ++ r) = extractWikilinksChars r := by
  induction s with
  | nil => rfl
  | cons c s ih =>
    have hc : c ≠ '[' := fun h => hs (h ▸ List.mem_cons_self c s)
    have hs' : '[' ∉ s := fun h => hs (List.mem_cons_of_mem c h)
    rw [List.cons_append, extractWikilinksChars_other c (s ++ r)
      (fun r2 h => by injection h with e1 e2; exact hc e1)]
    exact ih hs'

theorem takeWhile_append_stop (p : Char → Bool) (a : List Char) (ha : ∀ x ∈ a, p x = true)
    (b : List Char) (hb : ∀ y, b.head? = some y → p y = false) :
    (a ++ b).takeWhile p = a := by
  induction a with
  | nil =>
    simp only [List.nil_append]
    cases b with
    | nil => rfl
    | cons y b2 =>
      have := hb y rfl
      simp [List.takeWhile, this]
  | cons x a ih =>
    have hx := ha x (List.mem_cons_self _ _)
    have ha' : ∀ x ∈ a, p x = true := fun z hz => ha z (List.mem_cons_of_mem _ hz)
    simp [List.takeWhile, hx, ih ha']

theorem wlTryMatchB_render (inner : List Char) (h1 : inner ≠ []) (h2 : ']' ∉ inner)
    (r : List Char) :
    wlTryMatchB (inner ++ ']' :: ']' :: r) = some (inner, r) := by
  unfold wlTryMatchB
  dsimp only
  have ht : (inner ++ ']' :: ']' :: r).takeWhile (fun c => decide (c ≠ ']')) = inner := by
    apply takeWhile_append_stop
    · intro x hx
      have hx2 : x ≠ ']' := fun he => h2 (he ▸ hx)
      simp [hx2]
    · intro y hy
      injection hy with hy
      simp [← hy]
  rw [ht]
  have hd : (inner ++ ']' :: ']' :: r).drop inner.length = ']' :: ']' :: r :=
    List.drop_left inner _
  rw [hd]
  rw [if_neg (by simpa [List.isEmpty_iff] using h1)]
  rfl

theorem wlTryMatchA_render_noalias (t : List Char) (h1 : t ≠ []) (h2 : ']' ∉ t) (h3 : '|' ∉ t)
    (r : List Char) :
    wlTryMatchA (t ++ ']' :: ']' :: r) = some (t, r) := by
  unfold wlTryMatchA
  dsimp only
  have ht : (t ++ ']' :: ']' :: r).takeWhile (fun c => decide (c ≠ ']') && decide (c ≠ '|')) = t := by
    apply takeWhile_append_stop
    · intro x hx
      have hx2 : x ≠ ']' := fun he => h2 (he ▸ hx)
      have hx3 : x ≠ '|' := fun he => h3 (he ▸ hx)
      simp [hx2, hx3]
    · intro y hy
      injection hy with hy
      simp [← hy]
  rw [ht]
  have hd : (t ++ ']' :: ']' :: r).drop t.length = ']' :: ']' :: r := List.drop_left t _
  rw [hd]
  rw [if_neg (by simpa [List.isEmpty_iff] using h1)]
  rfl

theorem wlTryMatchA_render_alias (t a : List Char) (ht1 : t ≠ []) (ht2 : ']' ∉ t) (ht3 : '|' ∉ t)
    (ha1 : a ≠ []) (ha2 : ']' ∉ a) (r : List Char) :
    wlTryMatchA (t ++ '|' :: (a ++ ']' :: ']' :: r)) = some (t, r) := by
  unfold wlTryMatchA
  dsimp only
  have htw : (t ++ '|' :: (a ++ ']' :: ']' :: r)).takeWhile
      (fun c => decide (c ≠ ']') && decide (c ≠ '|')) = t := by
    apply takeWhile_append_stop
    · intro x hx
      have hx2 : x ≠ ']' := fun he => ht2 (he ▸ hx)
      have hx3 : x ≠ '|' := fun he => ht3 (he ▸ hx)
      simp [hx2, hx3]
    · intro y hy
      injection hy with hy
      simp [← hy]
  rw [htw]
  have hd : (t ++ '|' :: (a ++ ']' :: ']' :: r)).drop t.length = '|' :: (a ++ ']' :: ']' :: r) :=
    List.drop_left t _
  rw [hd]
  rw [if_neg (by simpa [List.isEmpty_iff] using ht1)]
  show (if ((a ++ ']' :: ']' :: r).takeWhile (fun c => decide (c ≠ ']'))).isEmpty = true then none
    else
      match (a ++ ']' :: ']' :: r).drop
          ((a ++ ']' :: ']' :: r).takeWhile (fun c => decide (c ≠ ']'))).length with
      | ']' :: ']' :: r4 => some (t, r4)
      | _ => none) = some (t, r)
  have haw : (a ++ ']' :: ']' :: r).takeWhile (fun c => decide (c ≠ ']')) = a := by
    apply takeWhile_append_stop
    · intro x hx
      have hx2 : x ≠ ']' := fun he => ha2 (he ▸ hx)
      simp [hx2]
    · intro y hy
      injection hy with hy
      simp [← hy]
  rw [haw]
  have hd2 : (a ++ ']' :: ']' :: r).drop a.length = ']' :: ']' :: r := List.drop_left a _
  rw [hd2]
  rw [if_neg (by simpa [List.isEmpty_iff] using ha1)]
  rfl

theorem pySplitChar_no_sep (sep : Char) (l : List Char) (h : sep ∉ l) :
    pySplitChar sep l = [l] := by
  induction l with
  | nil => rfl
  | cons c l ih =>
    have hc : c ≠ sep := fun he => h (he ▸ List.mem_cons_self _ _)
    have h' : sep ∉ l := fun hm => h (List.mem_cons_of_mem _ hm)
    unfold pySplitChar
    rw [ih h']
    simp [hc]

theorem pySplitChar_sep_split (sep : Char) (a b : List Char) (ha : sep ∉ a) :
    pySplitChar sep (a ++ sep :: b) = a :: pySplitChar sep b := by
  induction a with
  | nil =>
    show pySplitChar sep (sep :: b) = [] :: pySplitChar sep b
    conv_lhs => rw [pySplitChar]
    cases hb : pySplitChar sep b with
    | nil => exact absurd hb (pySplitChar_ne_nil sep b)
    | cons g gs => simp
  | cons c a ih =>
    have hc : c ≠ sep := fun he => ha (he ▸ List.mem_cons_self _ _)
    have ha2 : sep ∉ a := fun hm => ha (List.mem_cons_of_mem _ hm)
    show pySplitChar sep (c :: (a ++ sep :: b)) = (c :: a) :: pySplitChar sep b
    conv_lhs => rw [pySplitChar]
    rw [ih ha2]
    simp [hc]

theorem convert_wikilink_noalias (t : String) (h : '|' ∉ t.data) :
    convert_wikilink t.data =
      ("[" ++ pyStrip t ++ "](/blog/" ++ parameterize (pyStrip t) ++ ")").data := by
  unfold convert_wikilink
  rw [pySplitChar_no_sep '|' t.data h]
  rfl

theorem convert_wikilink_alias (t a : String) (ht : '|' ∉ t.data) (ha : '|' ∉ a.data) :
    convert_wikilink (t.data ++ '|' :: a.data) =
      ("[" ++ pyStrip a ++ "](/blog/" ++ parameterize (pyStrip t) ++ ")").data := by
  unfold convert_wikilink
  rw [pySplitChar_sep_split '|' t.data a.data ht, pySplitChar_no_sep '|' a.data ha]
  rfl

/-- A body decomposed into plain text, `[[target]]`/`[[target|alias]]`
cross-references, and `![[name]]` embedded-media references. -/
inductive WikiTok where
  | txt (s : String)
  | note (target : String) (al : Option String)
  | media (name : String)

def renderTokData : WikiTok → List Char
  | .txt s => s.data
  | .note t none => '[' :: '[' :: (t.data ++ [']', ']'])
  | .note t (some a) => '[' :: '[' :: (t.data ++ '|' :: (a.data ++ [']', ']']))
  | .media n => '!' :: '[' :: '[' :: (n.data ++ [']', ']'])

def renderToksData : List WikiTok → List Char
  | [] => []
  | tok :: ts => renderTokData tok ++ renderToksData ts

def substTokData : WikiTok → List Char
  | .txt s => s.data
  | .note t a => ("[" ++ pyStrip (a.getD t) ++ "](/blog/" ++ parameterize (pyStrip t) ++ ")").data
  | .media n => '!' :: '[' :: '[' :: (n.data ++ [']', ']'])

def substToksData : List WikiTok → List Char
  | [] => []
  | tok :: ts => substTokData tok ++ substToksData ts

def toksTargets : List WikiTok → List String
  | [] => []
  | .txt _ :: ts => toksTargets ts
  | .note t _ :: ts => t :: toksTargets ts
  | .media n :: ts => n :: toksTargets ts

/-- Well-formedness of a token: text holds no `[` and does not end in `!`;
targets, aliases and media names are non-empty and hold no `]` or `|`;
media names also hold no `[`. -/
def wfTok : WikiTok → Prop
  | .txt s => '[' ∉ s.data ∧ s.data.getLast? ≠ some '!'
  | .note t a => t.data ≠ [] ∧ ']' ∉ t.data ∧ '|' ∉ t.data ∧
      (match a with
       | some al => al.data ≠ [] ∧ ']' ∉ al.data ∧ '|' ∉ al.data
       | none => True)
  | .media n => n.data ≠ [] ∧ ']' ∉ n.data ∧ '|' ∉ n.data ∧ '[' ∉ n.data

theorem substWikilinks_toks (ts : List WikiTok) (h : ∀ tok ∈ ts, wfTok tok) :
    ∀ (prev : Option Char), prev ≠ some '!' →
      substWikilinks prev (renderToksData ts) = substToksData ts := by
  induction ts with
  | nil => intro prev hprev; exact substWikilinks_nil prev
  | cons tok ts ih =>
    intro prev hprev
    have htok := h tok (List.mem_cons_self _ _)
    have hts : ∀ t ∈ ts, wfTok t := fun t ht => h t (List.mem_cons_of_mem _ ht)
    cases tok with
    | txt s =>
      obtain ⟨h1, h2⟩ := htok
      show substWikilinks prev (s.data ++ renderToksData ts) = s.data ++ substToksData ts
      rw [substWikilinks_txt s.data h1 prev]
      have hpr : lastOpt s.data prev ≠ some '!' := by
        unfold lastOpt
        cases hgl : s.data.getLast? with
        | some c => rw [hgl] at h2; exact h2
        | none => exact hprev
      rw [ih hts _ hpr]
    | note t a =>
      obtain ⟨ht1, ht2, ht3, ha⟩ := htok
      cases a with
      | none =>
        show substWikilinks prev
            (('[' :: '[' :: (t.data ++ [']', ']'])) ++ renderToksData ts) =
          substTokData (.note t none) ++ substToksData ts
        have hshape : (('[' :: '[' :: (t.data ++ [']', ']'])) ++ renderToksData ts) =
            '[' :: '[' :: (t.data ++ ']' :: ']' :: renderToksData ts) := by simp
        rw [hshape]
        rw [substWikilinks_match prev _ t.data (renderToksData ts) hprev
          (wlTryMatchB_render t.data ht1 ht2 _)]
        rw [convert_wikilink_noalias t ht3, ih hts _ (by simp)]
        rfl
      | some al =>
        obtain ⟨ha1, ha2, ha3⟩ := ha
        show substWikilinks prev
            (('[' :: '[' :: (t.data ++ '|' :: (al.data ++ [']', ']']))) ++ renderToksData ts) =
          substTokData (.note t (some al)) ++ substToksData ts
        have hshape : (('[' :: '[' :: (t.data ++ '|' :: (al.data ++ [']', ']']))) ++
            renderToksData ts) =
            '[' :: '[' :: ((t.data ++ '|' :: al.data) ++ ']' :: ']' :: renderToksData ts) := by
          simp
        rw [hshape]
        have hinner1 : (t.data ++ '|' :: al.data) ≠ [] := by simp
        have hinner2 : ']' ∉ (t.data ++ '|' :: al.data) := by
          intro hm
          rcases List.mem_append.mp hm with hm | hm
          · exact ht2 hm
          · rcases List.mem_cons.mp hm with hm | hm
            · cases hm
            · exact ha2 hm
        rw [substWikilinks_match prev _ (t.data ++ '|' :: al.data) (renderToksData ts) hprev
          (wlTryMatchB_render _ hinner1 hinner2 _)]
        rw [convert_wikilink_alias t al ht3 ha3, ih hts _ (by simp)]
        rfl
    | media n =>
      obtain ⟨hn1, hn2, hn3, hn4⟩ := htok
      show substWikilinks prev
          (('!' :: '[' :: '[' :: (n.data ++ [']', ']'])) ++ renderToksData ts) =
        substTokData (.media n) ++ substToksData ts
      have hshape : (('!' :: '[' :: '[' :: (n.data ++ [']', ']'])) ++ renderToksData ts) =
          '!' :: '[' :: '[' :: (n.data ++ ']' :: ']' :: renderToksData ts) := by simp
      rw [hshape]
      rw [substWikilinks_other prev '!' _ (fun r2 hcontra => by injection hcontra with e1 _; cases e1)]
      rw [substWikilinks_blocked]
      have hnotbb : ∀ r2, '[' :: (n.data ++ ']' :: ']' :: renderToksData ts) ≠ '[' :: '[' :: r2 := by
        intro r2 hcontra
        injection hcontra with e1 e2
        cases hn : n.data with
        | nil => exact hn1 hn
        | cons c n2 =>
          rw [hn] at e2
          injection e2 with e2a _
          exact hn4 (by rw [hn, ← e2a]; exact List.mem_cons_self _ _)
      rw [substWikilinks_other (some '[') '[' _ (fun r2 hcontra => by
        injection hcontra with e1 e2
        exact hnotbb r2 (by rw [e2]))]
      rw [substWikilinks_txt n.data hn4 (some '[')]
      rw [substWikilinks_other _ ']' _
        (fun r2 hcontra => by injection hcontra with e1 e2; cases e1)]
      rw [substWikilinks_other _ ']' _
        (fun r2 hcontra => by injection hcontra with e1 e2; cases e1)]
      rw [ih hts _ (by simp)]
      show '!' :: '[' :: '[' :: (n.data ++ ']' :: ']' :: substToksData ts) =
        ('!' :: '[' :: '[' :: (n.data ++ [']', ']'])) ++ substToksData ts
      simp

theorem extractWikilinksChars_toks (ts : List WikiTok) (h : ∀ tok ∈ ts, wfTok tok) :
    extractWikilinksChars (renderToksData ts) = (toksTargets ts).map String.data := by
  induction ts with
  | nil => rfl
  | cons tok ts ih =>
    have htok := h tok (List.mem_cons_self _ _)
    have hts : ∀ t ∈ ts, wfTok t := fun t ht => h t (List.mem_cons_of_mem _ ht)
    cases tok with
    | txt s =>
      obtain ⟨h1, h2⟩ := htok
      show extractWikilinksChars (s.data ++ renderToksData ts) = (toksTargets ts).map String.data
      rw [extractWikilinksChars_txt s.data h1, ih hts]
    | note t a =>
      obtain ⟨ht1, ht2, ht3, ha⟩ := htok
      cases a with
      | none =>
        show extractWikilinksChars (('[' :: '[' :: (t.data ++ [']', ']'])) ++ renderToksData ts) =
          t.data :: (toksTargets ts).map String.data
        have hshape : (('[' :: '[' :: (t.data ++ [']', ']'])) ++ renderToksData ts) =
            '[' :: '[' :: (t.data ++ ']' :: ']' :: renderToksData ts) := by simp
        rw [hshape, extractWikilinksChars_match _ t.data _
          (wlTryMatchA_render_noalias t.data ht1 ht2 ht3 _), ih hts]
      | some al =>
        obtain ⟨ha1, ha2, ha3⟩ := ha
        show extractWikilinksChars
            (('[' :: '[' :: (t.data ++ '|' :: (al.data ++ [']', ']']))) ++ renderToksData ts) =
          t.data :: (toksTargets ts).map String.data
        have hshape : (('[' :: '[' :: (t.data ++ '|' :: (al.data ++ [']', ']']))) ++
            renderToksData ts) =
            '[' :: '[' :: (t.data ++ '|' :: (al.data ++ ']' :: ']' :: renderToksData ts)) := by
          simp
        rw [hshape, extractWikilinksChars_match _ t.data _
          (wlTryMatchA_render_alias t.data al.data ht1 ht2 ht3 ha1 ha2 _), ih hts]
    | media n =>
      obtain ⟨hn1, hn2, hn3, hn4⟩ := htok
      show extractWikilinksChars (('!' :: '[' :: '[' :: (n.data ++ [']', ']'])) ++ renderToksData ts) =
        n.data :: (toksTargets ts).map String.data
      have hshape : (('!' :: '[' :: '[' :: (n.data ++ [']', ']'])) ++ renderToksData ts) =
          '!' :: '[' :: '[' :: (n.data ++ ']' :: ']' :: renderToksData ts) := by simp
      rw [hshape]
      rw [extractWikilinksChars_other '!' _
        (fun r2 hcontra => by injection hcontra with e1 e2; cases e1)]
      rw [extractWikilinksChars_match _ n.data _
        (wlTryMatchA_render_noalias n.data hn1 hn2 hn3 _), ih hts]

theorem process_wikilinks_toks (ts : List WikiTok) (h : ∀ tok ∈ ts, wfTok tok) :
    process_wikilinks ⟨renderToksData ts⟩ =
      (⟨substToksData ts⟩, (toksTargets ts).dedup) := by
  have h1 : substWikilinks none (renderToksData ts) = substToksData ts :=
    substWikilinks_toks ts h none (by simp)
  have h2 : extract_wikilinks ⟨renderToksData ts⟩ = (toksTargets ts).dedup := by
    unfold extract_wikilinks
    show ((extractWikilinksChars (renderToksData ts)).map (fun l => (⟨l⟩ : String))).dedup =
      (toksTargets ts).dedup
    rw [extractWikilinksChars_toks ts h, List.map_map,
      map_id_of_eq ((fun l => (⟨l⟩ : String)) ∘ String.data) (toksTargets ts) (fun x => rfl)]
  show (⟨substWikilinks none (renderToksData ts)⟩, extract_wikilinks ⟨renderToksData ts⟩) =
    ((⟨substToksData ts⟩ : String), (toksTargets ts).dedup)
  rw [h1, h2]

/-- C6 counterexample: a body consisting only of the embedded-media
reference `![[img.png]]` is left untouched by the cross-reference rewrite
(the lookbehind blocks it), yet its media target IS returned in the
referenced-notes set — `extract_wikilinks`'s pattern has no lookbehind —
refuting the claim that media targets are not in the set. -/
theorem process_wikilinks_media_in_set :
    (process_wikilinks "![[img.png]]").1 = "![[img.png]]" ∧
    (process_wikilinks "![[img.png]]").2 = ["img.png"] ∧
    "img.png" ∈ (process_wikilinks "![[img.png]]").2 :=
  ⟨rfl, rfl, by decide⟩

/-- C6 (amended): over a body decomposed into well-formed text, note and
media tokens, `process_wikilinks` replaces every `[[target]]` /
`[[target|alias]]` occurrence not preceded by `!` with
`[alias-or-target](/blog/<slug of target>)`, leaves embedded media
untouched, and returns as the referenced-notes set the distinct pre-slugging
target strings of ALL double-bracket occurrences — including the media
targets of `![[...]]` occurrences (the extraction pattern has no
lookbehind). -/
theorem process_wikilinks_spec (ts : List WikiTok) (h : ∀ tok ∈ ts, wfTok tok) :
    process_wikilinks ⟨renderToksData ts⟩ =
      (⟨substToksData ts⟩, (toksTargets ts).dedup) :=
  process_wikilinks_toks ts h

/-- C6 witness: a body with text, an aliased note link and a media
reference. -/
theorem process_wikilinks_spec_witness :
    process_wikilinks "see [[My Note|here]] and ![[img.png]]" =
      ("see [here](/blog/my-note) and ![[img.png]]", ["My Note", "img.png"]) := by
  have hrender : ("see [[My Note|here]] and ![[img.png]]" : String) =
      ⟨renderToksData [WikiTok.txt "see ", WikiTok.note "My Note" (some "here"),
        WikiTok.txt " and ", WikiTok.media "img.png"]⟩ := by rfl
  rw [hrender, process_wikilinks_spec _ (by
    intro tok htok
    simp only [List.mem_cons, List.not_mem_nil, or_false] at htok
    rcases htok with rfl | rfl | rfl | rfl
    · exact ⟨by decide, by decide⟩
    · exact ⟨by decide, by decide, by decide, by decide, by decide, by decide⟩
    · exact ⟨by decide, by decide⟩
    · exact ⟨by decide, by decide, by decide, by decide⟩)]
  rfl

/-! Filesystem lemmas shared by the orchestrator claims -/

theorem fsLookup_map_overwrite (files : List (String × String)) (name doc k : String) :
    (fsLookup (files.map (fun p => if p.1 = name then (name, doc) else p)) k).isSome =
      (fsLookup files k).isSome := by
  induction files with
  | nil => rfl
  | cons p files ih =>
    by_cases hp : p.1 = name
    · simp only [List.map_cons, if_pos hp]
      by_cases hk : name = k
      · unfold fsLookup
        rw [List.find?_cons_of_pos _ (by simp [hk]), List.find?_cons_of_pos _ (by simp [hp ▸ hk])]
        rfl
      · unfold fsLookup
        rw [List.find?_cons_of_neg _ (by simp [hk]), List.find?_cons_of_neg _ (by simp [hp ▸ hk])]
        exact ih
    · simp only [List.map_cons, if_neg hp]
      by_cases hk : p.1 = k
      · unfold fsLookup
        rw [List.find?_cons_of_pos _ (by simp [hk]), List.find?_cons_of_pos _ (by simp [hk])]
      · unfold fsLookup
        rw [List.find?_cons_of_neg _ (by simp [hk]), List.find?_cons_of_neg _ (by simp [hk])]
        exact ih

theorem fsLookup_append (files more : List (String × String)) (k : String) :
    fsLookup (files ++ more) k =
      (fsLookup files k).or (fsLookup more k) := by
  induction files with
  | nil => rfl
  | cons p files ih =>
    by_cases hk : p.1 = k
    · unfold fsLookup
      rw [List.cons_append, List.find?_cons_of_pos _ (by simp [hk]),
        List.find?_cons_of_pos _ (by simp [hk])]
      rfl
    · unfold fsLookup
      rw [List.cons_append, List.find?_cons_of_neg _ (by simp [hk]),
        List.find?_cons_of_neg _ (by simp [hk])]
      exact ih

theorem fsWrite_preserves (files : List (String × String)) (name doc k : String)
    (h : (fsLookup files k).isSome) :
    (fsLookup (fsWrite files name doc) k).isSome := by
  unfold fsWrite
  split
  · rw [fsLookup_map_overwrite]; exact h
  · rw [fsLookup_append]
    cases hl : fsLookup files k with
    | some v => rfl
    | none => rw [hl] at h; cases h

theorem fsWrite_self_present (files : List (String × String)) (name doc : String) :
    (fsLookup (fsWrite files name doc) name).isSome := by
  unfold fsWrite
  split
  · rename_i hex
    rw [fsLookup_map_overwrite]
    unfold fsLookup
    cases hf : files.find? (fun p => p.1 = name) with
    | some v => rfl
    | none => rw [hf] at hex; cases hex
  · rw [fsLookup_append]
    cases hl : fsLookup files name with
    | some v => rfl
    | none =>
      show ((none : Option String).or (fsLookup [(name, doc)] name)).isSome
      unfold fsLookup
      rw [List.find?_cons_of_pos _ (by simp)]
      rfl

theorem fsLookup_filter_keep (pred : String × String → Bool) (files : List (String × String))
    (k : String) (hk : ∀ v, pred (k, v) = true) :
    fsLookup (files.filter pred) k = fsLookup files k := by
  induction files with
  | nil => rfl
  | cons p files ih =>
    by_cases hpk : p.1 = k
    · have : pred p = true := by
        have := hk p.2
        rwa [show (k, p.2) = p from by rw [← hpk]] at this
      rw [List.filter_cons_of_pos this]
      unfold fsLookup
      rw [List.find?_cons_of_pos _ (by simp [hpk]), List.find?_cons_of_pos _ (by simp [hpk])]
    · by_cases hp : pred p = true
      · rw [List.filter_cons_of_pos hp]
        unfold fsLookup
        rw [List.find?_cons_of_neg _ (by simp [hpk]), List.find?_cons_of_neg _ (by simp [hpk])]
        exact ih
      · rw [List.filter_cons_of_neg (by simpa using hp)]
        unfold fsLookup
        rw [List.find?_cons_of_neg _ (by simp [hpk])]
        exact ih

theorem process_note_fst (cfg : Config) (env : Env) (now : String) (fs : FS) (n : Note) :
    (process_note cfg env now fs n).1 =
      if n.procFails then fs
      else
        { content := fsWrite fs.content (slugOf n ++ ".md")
            (note_doc cfg env now ((fsLookup fs.content (slugOf n ++ ".md")).isSome) n),
          images := (fs.images ++ note_images cfg env n).dedup } := by
  unfold process_note
  split
  · rfl
  · rfl

theorem fold_preserves (cfg : Config) (env : Env) (now : String) :
    ∀ (ns : List Note) (st : FS) (k : String),
      (fsLookup st.content k).isSome →
      (fsLookup ((ns.foldl (fun acc n => (process_note cfg env now acc n).1) st).content) k).isSome := by
  intro ns
  induction ns with
  | nil => intro st k h; exact h
  | cons n ns ih =>
    intro st k h
    rw [List.foldl_cons]
    apply ih
    rw [process_note_fst]
    split
    · exact h
    · exact fsWrite_preserves _ _ _ _ h

theorem clean_orphaned_images_content (fs : FS) :
    (clean_orphaned_images fs).content = fs.content := rfl

/-! ### Claim C10 -/

/-- C10: the orphan sweep computes its valid slug set from the same
eligible-note list with the identical title-to-slug derivation (`slugOf`,
i.e. frontmatter title falling back to the stem, through `parameterize`)
that `process_note` uses, so an output file whose slug belongs to a
currently-eligible note — including a note whose processing raised an
exception and was counted as failed — is never deleted by the run. -/
theorem eligible_never_deleted (cfg : Config) (env : Env) (now : String)
    (notes : List Note) (fs : FS) (n : Note)
    (hn : n ∈ notes.filter
      (fun m => (is_publishable cfg.required_tags cfg.excluded_tags m.tagsDecl).1))
    (hfile : (fsLookup fs.content (slugOf n ++ ".md")).isSome) :
    (fsLookup (publish_all cfg env now false notes fs).content (slugOf n ++ ".md")).isSome := by
  unfold publish_all
  dsimp only
  rw [if_neg (by
    simp only [List.isEmpty_iff]
    exact fun hcontra => List.not_mem_nil n (hcontra ▸ hn))]
  rw [if_neg (by decide)]
  rw [clean_orphaned_images_content]
  show (fsLookup (clean_orphaned_files
      (notes.filter (fun m => (is_publishable cfg.required_tags cfg.excluded_tags m.tagsDecl).1))
      ((List.foldl (fun acc n => (process_note cfg env now acc n).1) fs
        (notes.filter (fun m =>
          (is_publishable cfg.required_tags cfg.excluded_tags m.tagsDecl).1))).content))
    (slugOf n ++ ".md")).isSome
  unfold clean_orphaned_files
  rw [fsLookup_filter_keep _ _ _ (by
    intro v
    have hmem : (slugOf n ++ ".md") ∈ current_slug_files
        (notes.filter (fun m =>
          (is_publishable cfg.required_tags cfg.excluded_tags m.tagsDecl).1)) := by
      unfold current_slug_files
      exact List.mem_map.mpr ⟨n, hn, rfl⟩
    simp only [Bool.or_eq_true, Bool.not_eq_true', contains_mem_iff]
    exact Or.inr hmem)]
  exact fold_preserves cfg env now _ fs _ hfile

/-- Configuration and environment for the orchestrator witnesses. -/
def cfgW : Config := { required_tags := ["status/evergreen"] }

def envW : Env :=
  { historyDate := fun _ => none, gitLog := fun _ => .ok none, ctime := fun _ => "T",
    optimizerOutput := fun _ => [], imageFound := fun _ => false }

/-- An eligible note whose processing raises an exception. -/
def noteFailW : Note := { stem := "Kept", tagsDecl := .strs ["status/evergreen"], procFails := true }

def noteOkW : Note := { stem := "Other", tagsDecl := .strs ["status/evergreen"] }

/-- C10 witness: the failed eligible note's pre-existing output survives
the sweep. -/
theorem eligible_never_deleted_witness :
    (fsLookup (publish_all cfgW envW "NOW" false [noteFailW, noteOkW]
        { content := [("kept.md", "old")] }).content "kept.md").isSome :=
  eligible_never_deleted cfgW envW "NOW" [noteFailW, noteOkW]
    { content := [("kept.md", "old")] } noteFailW (by decide) (by decide)

/-! Idempotence machinery -/

/-- The recorded history value is usable verbatim (a string or datetime). -/
def histUsable : Option YVal → Prop
  | some (.str _) => True
  | some (.dt _) => True
  | _ => False

/-- The `created` value resolves independently of the current timestamp. -/
def createdStable : Option YVal → Prop
  | some (.str _) => True
  | some (.dt _) => True
  | _ => False

/-- Date resolution for a note does not fall back to the current
timestamp in either run: the creation-date lookup does not raise, and
either there is no recoverable history and `created` is stable, or the
output already existed before the first run and the history value is
usable. -/
def dateStableHyp (env : Env) (fs0 : FS) (n : Note) : Prop :=
  (∃ d, env.gitLog n.stem = .ok d) ∧
  ((env.historyDate (slugOf n) = none ∧ createdStable n.created?) ∨
    ((fsLookup fs0.content (slugOf n ++ ".md")).isSome = true ∧
      histUsable (env.historyDate (slugOf n))))

theorem gopd_hist_none (env : Env) (now : String) (oe : Bool) (slug : String)
    (c : Option YVal) (h : env.historyDate slug = none) :
    get_original_publication_date env now oe slug c = createdDate c now := by
  unfold get_original_publication_date
  cases oe with
  | false => rfl
  | true => rw [h]; rfl

theorem createdDate_stable (c : Option YVal) (h : createdStable c) (now now' : String) :
    createdDate c now = createdDate c now' := by
  cases c with
  | none => cases h
  | some v =>
    cases v with
    | str s => rfl
    | dt d => rfl
    | strs l => cases h
    | other => cases h

theorem gopd_hist_usable (env : Env) (now now' : String) (slug : String) (c : Option YVal)
    (h : histUsable (env.historyDate slug)) :
    get_original_publication_date env now true slug c =
      get_original_publication_date env now' true slug c := by
  unfold get_original_publication_date
  cases hv : env.historyDate slug with
  | none => rw [hv] at h; cases h
  | some v =>
    cases v with
    | str s => rfl
    | dt d => rfl
    | strs l => rw [hv] at h; cases h
    | other => rw [hv] at h; cases h

theorem note_doc_stable (cfg : Config) (env : Env) (fs0 : FS) (n : Note)
    (hd : dateStableHyp env fs0 n) (now now' : String) (oe oe' : Bool)
    (hB : ((fsLookup fs0.content (slugOf n ++ ".md")).isSome = true ∧
        histUsable (env.historyDate (slugOf n))) → (oe = true ∧ oe' = true)) :
    note_doc cfg env now oe n = note_doc cfg env now' oe' n := by
  obtain ⟨⟨d, hgit⟩, hcase⟩ := hd
  have hdoc : get_creation_date env now n.stem = get_creation_date env now' n.stem := by
    unfold get_creation_date
    rw [hgit]
    cases d <;> rfl
  have hdate : get_original_publication_date env now oe (slugOf n) n.created? =
      get_original_publication_date env now' oe' (slugOf n) n.created? := by
    rcases hcase with ⟨hnone, hstable⟩ | hBside
    · rw [gopd_hist_none env now oe _ _ hnone, gopd_hist_none env now' oe' _ _ hnone]
      exact createdDate_stable _ hstable now now'
    · obtain ⟨ho, ho'⟩ := hB hBside
      rw [ho, ho']
      exact gopd_hist_usable env now now' _ _ hBside.2
  unfold note_doc written_frontmatter
  dsimp only
  rw [hdoc, hdate]

/-- When the target file already exists, `fsWrite` is an in-place
entry-wise overwrite: no entry is appended and the key order is kept. -/
theorem fsWrite_exists_map (files : List (String × String)) (name doc : String)
    (h : (fsLookup files name).isSome = true) :
    fsWrite files name doc = files.map (fun p => if p.1 = name then (name, doc) else p) := by
  unfold fsWrite
  rw [if_pos (by
    unfold fsLookup at h
    cases hf : files.find? (fun p => p.1 = name) with
    | some v => simp [hf]
    | none => rw [hf] at h; cases h)]

theorem fsWrite_all_values (files : List (String × String)) (name doc : String) :
    ∀ p ∈ fsWrite files name doc, p.1 = name → p.2 = doc := by
  unfold fsWrite
  split
  · intro p hp hpk
    obtain ⟨q, hq, hmap⟩ := List.mem_map.mp hp
    by_cases hqn : q.1 = name
    · rw [if_pos hqn] at hmap
      rw [← hmap]
    · rw [if_neg hqn] at hmap
      rw [← hmap] at hpk
      exact absurd hpk hqn
  · rename_i hex
    intro p hp hpk
    rcases List.mem_append.mp hp with hmem | hmem
    · exfalso
      apply hex
      cases hf : files.find? (fun q => decide (q.1 = name)) with
      | some v => rfl
      | none =>
        exfalso
        have hnone := List.find?_eq_none.mp hf p hmem
        simp [hpk] at hnone
    · have heq := List.mem_singleton.mp hmem
      rw [heq]

theorem fsWrite_other_values (files : List (String × String)) (name doc k v : String)
    (hk : k ≠ name) (h : ∀ p ∈ files, p.1 = k → p.2 = v) :
    ∀ p ∈ fsWrite files name doc, p.1 = k → p.2 = v := by
  unfold fsWrite
  split
  · intro p hp hpk
    obtain ⟨q, hq, hmap⟩ := List.mem_map.mp hp
    by_cases hqn : q.1 = name
    · rw [if_pos hqn] at hmap
      rw [← hmap] at hpk
      exact absurd hpk.symm hk
    · rw [if_neg hqn] at hmap
      rw [← hmap] at hpk ⊢
      exact h q hq hpk
  · intro p hp hpk
    rcases List.mem_append.mp hp with hmem | hmem
    · exact h p hmem hpk
    · have heq := List.mem_singleton.mp hmem
      rw [heq] at hpk
      exact absurd hpk.symm hk

/-- The last non-failing note in the list whose output file is `k`: the
winner of "last write wins" when several eligible notes share a slug. -/
def lastWrite (k : String) : List Note → Option Note
  | [] => none
  | n :: ns =>
    match lastWrite k ns with
    | some m => some m
    | none => if n.procFails = false ∧ slugOf n ++ ".md" = k then some n else none

theorem lastWrite_cons_some (k : String) (n : Note) (ns : List Note) (m : Note)
    (h : lastWrite k ns = some m) : lastWrite k (n :: ns) = some m := by
  unfold lastWrite
  rw [h]

theorem lastWrite_cons_none (k : String) (n : Note) (ns : List Note)
    (h : lastWrite k ns = none) :
    lastWrite k (n :: ns) =
      if n.procFails = false ∧ slugOf n ++ ".md" = k then some n else none := by
  unfold lastWrite
  rw [h]

theorem lastWrite_none (k : String) :
    ∀ (ns : List Note), lastWrite k ns = none →
      ∀ n ∈ ns, n.procFails = false → slugOf n ++ ".md" ≠ k := by
  intro ns
  induction ns with
  | nil => intro _ n hn; cases hn
  | cons m ns ih =>
    intro h n hn hnf
    cases hl : lastWrite k ns with
    | some x =>
      rw [lastWrite_cons_some k m ns x hl] at h
      exact Option.noConfusion h
    | none =>
      rw [lastWrite_cons_none k m ns hl] at h
      rcases List.mem_cons.mp hn with rfl | hn'
      · intro hcontra
        rw [if_pos ⟨hnf, hcontra⟩] at h
        exact Option.noConfusion h
      · exact ih hl n hn' hnf

/-- Values at a file no non-failing note in the list writes are untouched
by the processing fold. -/
theorem fold_ok_other_values (cfg : Config) (env : Env) (now : String) :
    ∀ (ns : List Note) (st : FS) (k v : String),
      (∀ m ∈ ns, m.procFails = false → slugOf m ++ ".md" ≠ k) →
      (∀ p ∈ st.content, p.1 = k → p.2 = v) →
      ∀ p ∈ ((ns.foldl (fun acc n => (process_note cfg env now acc n).1) st).content),
        p.1 = k → p.2 = v := by
  intro ns
  induction ns with
  | nil => intro st k v _ h; exact h
  | cons n ns ih =>
    intro st k v hk h
    rw [List.foldl_cons]
    apply ih _ k v (fun m hm => hk m (List.mem_cons_of_mem _ hm))
    rw [process_note_fst]
    split
    · exact h
    · rename_i hnf
      have hnf' : n.procFails = false := by
        revert hnf
        cases n.procFails <;> simp
      exact fsWrite_other_values _ _ _ _ _
        (fun hc => hk n (List.mem_cons_self _ _) hnf' hc.symm) h

/-- After the first-run fold, the file `k` exists and holds the canonical
document of its last writer — for every key that some non-failing stable
note writes, with no assumption that slugs are pairwise distinct. -/
theorem run1_fold_spec (cfg : Config) (env : Env) (now1 now2 : String) (fs0 : FS) :
    ∀ (ns : List Note) (st : FS),
      (∀ k, (fsLookup fs0.content k).isSome = true → (fsLookup st.content k).isSome = true) →
      (∀ n ∈ ns, dateStableHyp env fs0 n) →
      ∀ k n, lastWrite k ns = some n →
        (fsLookup ((ns.foldl (fun acc m => (process_note cfg env now1 acc m).1) st).content)
          k).isSome = true ∧
        (∀ p ∈ ((ns.foldl (fun acc m => (process_note cfg env now1 acc m).1) st).content),
          p.1 = k → p.2 = note_doc cfg env now2 true n) := by
  intro ns
  induction ns with
  | nil => intro st _ _ k n hlast; exact Option.noConfusion hlast
  | cons m ns ih =>
    intro st hP hdates k n hlast
    rw [List.foldl_cons]
    have hP2 : ∀ k2, (fsLookup fs0.content k2).isSome = true →
        (fsLookup (process_note cfg env now1 st m).1.content k2).isSome = true := by
      intro k2 hk2
      rw [process_note_fst]
      split
      · exact hP k2 hk2
      · exact fsWrite_preserves _ _ _ _ (hP k2 hk2)
    have hdates' : ∀ x ∈ ns, dateStableHyp env fs0 x :=
      fun x hx => hdates x (List.mem_cons_of_mem _ hx)
    cases hl : lastWrite k ns with
    | some n2 =>
      -- a later note also writes k: the tail fold settles the value
      rw [lastWrite_cons_some k m ns n2 hl] at hlast
      have hn2 := Option.some.inj hlast
      subst hn2
      exact ih _ hP2 hdates' k n2 hl
    | none =>
      rw [lastWrite_cons_none k m ns hl] at hlast
      by_cases hc : m.procFails = false ∧ slugOf m ++ ".md" = k
      · rw [if_pos hc] at hlast
        have hmn := Option.some.inj hlast
        subst hmn
        obtain ⟨hmf, hmk⟩ := hc
        -- the head writes k and no later note touches it again
        have hdm := hdates m (List.mem_cons_self _ _)
        have hdoc_eq : note_doc cfg env now1 ((fsLookup st.content (slugOf m ++ ".md")).isSome) m =
            note_doc cfg env now2 true m := by
          apply note_doc_stable cfg env fs0 m hdm
          intro hB
          exact ⟨hP _ hB.1, rfl⟩
        have hst2 : (process_note cfg env now1 st m).1.content =
            fsWrite st.content (slugOf m ++ ".md") (note_doc cfg env now2 true m) := by
          rw [process_note_fst, if_neg (by rw [hmf]; exact fun h => nomatch h)]
          rw [hdoc_eq]
        constructor
        · apply fold_preserves
          rw [hst2, ← hmk]
          exact fsWrite_self_present _ _ _
        · apply fold_ok_other_values cfg env now1 ns _ k _ (lastWrite_none k ns hl)
          intro p hp hpk
          rw [hst2] at hp
          exact fsWrite_all_values _ _ _ p hp (hpk.trans hmk.symm)
      · rw [if_neg hc] at hlast
        exact Option.noConfusion hlast

/-- The entry a filesystem entry is mapped to by a run over stable state:
overwritten with its last writer's canonical document, or left alone. -/
def finalDoc (cfg : Config) (env : Env) (now2 : String) (ns : List Note)
    (p : String × String) : String × String :=
  match lastWrite p.1 ns with
  | some n => (p.1, note_doc cfg env now2 true n)
  | none => p

theorem finalDoc_some (cfg : Config) (env : Env) (now2 : String) (ns : List Note)
    (p : String × String) (n : Note) (h : lastWrite p.1 ns = some n) :
    finalDoc cfg env now2 ns p = (p.1, note_doc cfg env now2 true n) := by
  unfold finalDoc
  rw [h]

theorem finalDoc_none (cfg : Config) (env : Env) (now2 : String) (ns : List Note)
    (p : String × String) (h : lastWrite p.1 ns = none) :
    finalDoc cfg env now2 ns p = p := by
  unfold finalDoc
  rw [h]

/-- When every non-failing note's output file already exists, the second
run's fold rewrites each existing entry with its last writer's canonical
document in place — so duplicate slugs resolve to the same final value in
both runs. -/
theorem run2_fold_map (cfg : Config) (env : Env) (now2 : String) :
    ∀ (ns : List Note) (st : FS),
      (∀ n ∈ ns, n.procFails = false →
        (fsLookup st.content (slugOf n ++ ".md")).isSome = true) →
      ((ns.foldl (fun acc n => (process_note cfg env now2 acc n).1) st).content) =
        st.content.map (finalDoc cfg env now2 ns) := by
  intro ns
  induction ns with
  | nil =>
    intro st _
    exact (map_id_of_eq _ _ (fun p => finalDoc_none cfg env now2 [] p rfl)).symm
  | cons m ns ih =>
    intro st h
    rw [List.foldl_cons]
    cases hmf : m.procFails with
    | true =>
      have hstep : (process_note cfg env now2 st m).1 = st := by
        rw [process_note_fst, if_pos hmf]
      rw [hstep, ih st (fun x hx hxf => h x (List.mem_cons_of_mem _ hx) hxf)]
      have hfun : ∀ p : String × String,
          finalDoc cfg env now2 ns p = finalDoc cfg env now2 (m :: ns) p := by
        intro p
        cases hl : lastWrite p.1 ns with
        | some n =>
          rw [finalDoc_some cfg env now2 ns p n hl,
            finalDoc_some cfg env now2 (m :: ns) p n (lastWrite_cons_some _ m ns n hl)]
        | none =>
          rw [finalDoc_none cfg env now2 ns p hl,
            finalDoc_none cfg env now2 (m :: ns) p (by
              rw [lastWrite_cons_none _ m ns hl]
              exact if_neg (fun hc => by rw [hc.1] at hmf; exact Bool.noConfusion hmf))]
      rw [funext hfun]
    | false =>
      have hex : (fsLookup st.content (slugOf m ++ ".md")).isSome = true :=
        h m (List.mem_cons_self _ _) hmf
      have hstepW : (process_note cfg env now2 st m).1.content =
          fsWrite st.content (slugOf m ++ ".md") (note_doc cfg env now2 true m) := by
        rw [process_note_fst, if_neg (by rw [hmf]; exact fun hc => nomatch hc)]
        show fsWrite st.content (slugOf m ++ ".md")
          (note_doc cfg env now2 ((fsLookup st.content (slugOf m ++ ".md")).isSome) m) =
          fsWrite st.content (slugOf m ++ ".md") (note_doc cfg env now2 true m)
        rw [hex]
      have hstep : (process_note cfg env now2 st m).1.content =
          st.content.map (fun p => if p.1 = slugOf m ++ ".md"
            then (slugOf m ++ ".md", note_doc cfg env now2 true m) else p) := by
        rw [hstepW]
        exact fsWrite_exists_map _ _ _ hex
      have hex' : ∀ x ∈ ns, x.procFails = false →
          (fsLookup (process_note cfg env now2 st m).1.content (slugOf x ++ ".md")).isSome = true := by
        intro x hx hxf
        rw [hstepW]
        exact fsWrite_preserves _ _ _ _ (h x (List.mem_cons_of_mem _ hx) hxf)
      rw [ih _ hex', hstep, List.map_map]
      have hfun : ∀ p : String × String,
          finalDoc cfg env now2 ns (if p.1 = slugOf m ++ ".md"
            then (slugOf m ++ ".md", note_doc cfg env now2 true m) else p) =
          finalDoc cfg env now2 (m :: ns) p := by
        intro p
        by_cases hpk : p.1 = slugOf m ++ ".md"
        · rw [if_pos hpk]
          cases hl : lastWrite (slugOf m ++ ".md") ns with
          | some n =>
            have h1 := finalDoc_some cfg env now2 ns
              (slugOf m ++ ".md", note_doc cfg env now2 true m) n hl
            have h2 := finalDoc_some cfg env now2 (m :: ns) p n (by
              rw [hpk]
              exact lastWrite_cons_some _ m ns n hl)
            rw [h1, h2, hpk]
          | none =>
            have h1 := finalDoc_none cfg env now2 ns
              (slugOf m ++ ".md", note_doc cfg env now2 true m) hl
            have h2 := finalDoc_some cfg env now2 (m :: ns) p m (by
              rw [hpk, lastWrite_cons_none _ m ns hl, if_pos ⟨hmf, rfl⟩])
            rw [h1, h2, hpk]
        · rw [if_neg hpk]
          cases hl : lastWrite p.1 ns with
          | some n =>
            rw [finalDoc_some cfg env now2 ns p n hl,
              finalDoc_some cfg env now2 (m :: ns) p n (lastWrite_cons_some _ m ns n hl)]
          | none =>
            rw [finalDoc_none cfg env now2 ns p hl,
              finalDoc_none cfg env now2 (m :: ns) p (by
                rw [lastWrite_cons_none _ m ns hl]
                exact if_neg (fun hc => hpk hc.2.symm))]
      have hcomp : (finalDoc cfg env now2 ns) ∘ (fun p : String × String =>
          if p.1 = slugOf m ++ ".md"
            then (slugOf m ++ ".md", note_doc cfg env now2 true m) else p) =
          finalDoc cfg env now2 (m :: ns) := funext hfun
      rw [hcomp]

theorem publish_all_run (cfg : Config) (env : Env) (now : String) (notes : List Note) (fs : FS)
    (hne : ¬ (notes.filter (fun m =>
      (is_publishable cfg.required_tags cfg.excluded_tags m.tagsDecl).1)).isEmpty = true) :
    publish_all cfg env now false notes fs =
      clean_orphaned_images
        { content := clean_orphaned_files
            (notes.filter (fun m => (is_publishable cfg.required_tags cfg.excluded_tags m.tagsDecl).1))
            (((notes.filter (fun m =>
                (is_publishable cfg.required_tags cfg.excluded_tags m.tagsDecl).1)).foldl
              (fun acc n => (process_note cfg env now acc n).1) fs).content),
          images := ((notes.filter (fun m =>
              (is_publishable cfg.required_tags cfg.excluded_tags m.tagsDecl).1)).foldl
            (fun acc n => (process_note cfg env now acc n).1) fs).images } := by
  unfold publish_all
  dsimp only
  rw [if_neg hne, if_neg (by decide)]

/-- C2 (amended): running the pipeline twice on an unchanged source set and
environment produces identical destination content directory state (hence
equal publication dates), provided no eligible document's publication-date
or creation-date resolution falls back to the current-timestamp last resort
(`dateStableHyp`); when several eligible documents share a slug the last
write wins identically in both runs, so no distinctness is needed. -/
theorem publish_twice_idempotent (cfg : Config) (env : Env) (now1 now2 : String)
    (notes : List Note) (fs0 : FS)
    (hdates : ∀ n ∈ notes.filter
      (fun m => (is_publishable cfg.required_tags cfg.excluded_tags m.tagsDecl).1),
      dateStableHyp env fs0 n) :
    (publish_all cfg env now2 false notes (publish_all cfg env now1 false notes fs0)).content =
      (publish_all cfg env now1 false notes fs0).content := by
  by_cases he : (notes.filter (fun m =>
      (is_publishable cfg.required_tags cfg.excluded_tags m.tagsDecl).1)).isEmpty = true
  · have h1 : publish_all cfg env now1 false notes fs0 = fs0 := by
      unfold publish_all; dsimp only; rw [if_pos he]
    have h2 : publish_all cfg env now2 false notes fs0 = fs0 := by
      unfold publish_all; dsimp only; rw [if_pos he]
    rw [h1, h2]
  · set elig := notes.filter (fun m =>
        (is_publishable cfg.required_tags cfg.excluded_tags m.tagsDecl).1) with helig
    set fold1 := elig.foldl (fun acc n => (process_note cfg env now1 acc n).1) fs0 with hfold1
    have hrun1 := publish_all_run cfg env now1 notes fs0 he
    rw [← helig, ← hfold1] at hrun1
    set C1c := clean_orphaned_files elig fold1.content with hC1c
    -- facts about the state after run 1
    have hspec := run1_fold_spec cfg env now1 now2 fs0 elig fs0 (fun k hk => hk) hdates
    have hkeepOK : ∀ (n : Note), n ∈ elig → ∀ (v : String),
        ((!pyEndsWith (slugOf n ++ ".md", v).1 ".md" ||
          (current_slug_files elig).contains (slugOf n ++ ".md", v).1) = true) := by
      intro n hn v
      have hmem : (slugOf n ++ ".md") ∈ current_slug_files elig :=
        List.mem_map.mpr ⟨n, hn, rfl⟩
      simp only [Bool.or_eq_true, contains_mem_iff]
      exact Or.inr hmem
    have hF1 : ∀ n ∈ elig, n.procFails = false →
        (fsLookup C1c (slugOf n ++ ".md")).isSome = true := by
      intro n hn hnf
      rw [hC1c]
      unfold clean_orphaned_files
      rw [fsLookup_filter_keep _ _ _ (hkeepOK n hn)]
      cases hl : lastWrite (slugOf n ++ ".md") elig with
      | some n2 => exact (hspec _ n2 hl).1
      | none => exact absurd rfl (lastWrite_none _ elig hl n hn hnf)
    have hF2 : ∀ p ∈ C1c, finalDoc cfg env now2 elig p = p := by
      intro p hp
      cases hl : lastWrite p.1 elig with
      | some n =>
        have hp1 : p ∈ fold1.content := (List.mem_filter.mp hp).1
        have hv := (hspec p.1 n hl).2 p hp1 rfl
        rw [finalDoc_some cfg env now2 elig p n hl, ← hv]
      | none => exact finalDoc_none cfg env now2 elig p hl
    have hF3 : ∀ p ∈ C1c, (!pyEndsWith p.1 ".md" ||
        (current_slug_files elig).contains p.1) = true :=
      fun p hp => (List.mem_filter.mp hp).2
    -- run 2
    have hR1c : (publish_all cfg env now1 false notes fs0).content = C1c := by
      rw [hrun1]
      rfl
    have hrun2 := publish_all_run cfg env now2 notes (publish_all cfg env now1 false notes fs0) he
    rw [← helig] at hrun2
    set fold2 := elig.foldl (fun acc n => (process_note cfg env now2 acc n).1)
      (publish_all cfg env now1 false notes fs0) with hfold2
    have hrun2hyp : ∀ n ∈ elig, n.procFails = false →
        (fsLookup (publish_all cfg env now1 false notes fs0).content
          (slugOf n ++ ".md")).isSome = true := by
      intro n hn hnf
      rw [hR1c]
      exact hF1 n hn hnf
    have hfold2c : fold2.content = C1c := by
      rw [hfold2, run2_fold_map cfg env now2 elig
        (publish_all cfg env now1 false notes fs0) hrun2hyp, hR1c]
      exact map_id_of_mem _ C1c hF2
    rw [hrun2]
    show (clean_orphaned_files elig fold2.content) =
      (publish_all cfg env now1 false notes fs0).content
    rw [hfold2c, hR1c]
    unfold clean_orphaned_files
    exact List.filter_eq_self.mpr hF3

/-- C1 (amended): after a non-dry-run invocation of `publish_all` in which
at least one note is eligible (otherwise the run returns early without
sweeping), every `*.md` file remaining in the destination content directory
is named `<slug>.md` for some currently-eligible note, and every remaining
media file over the scanned extensions is referenced — directly or via the
`.webp`-to-`.png` fallback name — by some document present in the
destination content directory. -/
theorem reconciliation_after_run (cfg : Config) (env : Env) (now : String)
    (notes : List Note) (fs : FS)
    (hne : ¬ (notes.filter (fun m =>
      (is_publishable cfg.required_tags cfg.excluded_tags m.tagsDecl).1)).isEmpty = true) :
    (∀ p ∈ (publish_all cfg env now false notes fs).content,
      pyEndsWith p.1 ".md" = true →
        ∃ n ∈ notes.filter (fun m =>
            (is_publishable cfg.required_tags cfg.excluded_tags m.tagsDecl).1),
          p.1 = slugOf n ++ ".md") ∧
    (∀ img ∈ (publish_all cfg env now false notes fs).images, scanned_ext img = true →
      ∃ p ∈ (publish_all cfg env now false notes fs).content,
        pyEndsWith p.1 ".md" = true ∧ img ∈ imageRefsWithFallback p.2) := by
  rw [publish_all_run cfg env now notes fs hne]
  set elig := notes.filter (fun m =>
      (is_publishable cfg.required_tags cfg.excluded_tags m.tagsDecl).1) with helig
  set fold1 := elig.foldl (fun acc n => (process_note cfg env now acc n).1) fs with hfold1
  set C1c := clean_orphaned_files elig fold1.content with hC1c
  constructor
  · intro p hp hmd
    have hp2 : p ∈ fold1.content ∧
        (!pyEndsWith p.1 ".md" || (current_slug_files elig).contains p.1) = true :=
      List.mem_filter.mp hp
    have hkeep := hp2.2
    rw [hmd] at hkeep
    simp only [Bool.not_true, Bool.false_or, contains_mem_iff] at hkeep
    obtain ⟨n, hn, heq⟩ := List.mem_map.mp hkeep
    exact ⟨n, hn, heq.symm⟩
  · intro img him hscan
    have him2 : img ∈ fold1.images ∧
        (!scanned_ext img || (referencedImages C1c).contains img) = true := by
      have := List.mem_filter.mp him
      exact this
    have hkeep := him2.2
    rw [hscan] at hkeep
    simp only [Bool.not_true, Bool.false_or, contains_mem_iff] at hkeep
    unfold referencedImages at hkeep
    obtain ⟨p, hpmem, hpref⟩ := List.mem_flatMap.mp hkeep
    by_cases hmd : pyEndsWith p.1 ".md" = true
    · rw [if_pos hmd] at hpref
      exact ⟨p, hpmem, hmd, hpref⟩
    · rw [if_neg hmd] at hpref
      cases hpref

/-- An ineligible note (no tags at all). -/
def noteNoTags : Note := { stem := "A Note" }

/-- C1 counterexample: when no note is eligible, `publish_all` returns
before the sweep, so a stale `b.md` survives even though it corresponds to
no eligible note. -/
theorem reconciliation_skipped_when_no_eligible :
    ¬ (∀ p ∈ (publish_all cfgW envW "NOW" false [noteNoTags]
          { content := [("b.md", "x")] }).content,
        pyEndsWith p.1 ".md" = true →
          ∃ n ∈ [noteNoTags].filter
              (fun m => (is_publishable cfgW.required_tags cfgW.excluded_tags m.tagsDecl).1),
            p.1 = slugOf n ++ ".md") := by
  intro h
  have hc : (publish_all cfgW envW "NOW" false [noteNoTags]
      { content := [("b.md", "x")] }).content = [("b.md", "x")] := rfl
  have hm : (("b.md", "x") : String × String) ∈ (publish_all cfgW envW "NOW" false [noteNoTags]
      { content := [("b.md", "x")] }).content := by
    rw [hc]; exact List.mem_singleton.mpr rfl
  have hx := h ("b.md", "x") hm rfl
  have hfilter : [noteNoTags].filter
      (fun m => (is_publishable cfgW.required_tags cfgW.excluded_tags m.tagsDecl).1) = [] := rfl
  rw [hfilter] at hx
  simp at hx

/-- C1 witness: with one eligible note, every surviving `.md` file is that
note's slug file. -/
theorem reconciliation_after_run_witness :
    ∃ n ∈ [noteOkW].filter (fun m =>
        (is_publishable cfgW.required_tags cfgW.excluded_tags m.tagsDecl).1),
      ("other.md" : String) = slugOf n ++ ".md" := by
  have h := (reconciliation_after_run cfgW envW "NOW" [noteOkW]
      { content := [("stale.md", "x")] } (by
        rw [show [noteOkW].filter (fun m =>
          (is_publishable cfgW.required_tags cfgW.excluded_tags m.tagsDecl).1) = [noteOkW] from rfl]
        decide)).1
  apply h ("other.md", "---\nauthor: Kishore Kumar\ndate: NOW\ndoc: T\ntitle: Other\n---\n")
  · rw [show (publish_all cfgW envW "NOW" false [noteOkW]
        { content := [("stale.md", "x")] }).content =
      [("other.md", "---\nauthor: Kishore Kumar\ndate: NOW\ndoc: T\ntitle: Other\n---\n")] from rfl]
    exact List.mem_singleton.mpr rfl
  · rfl

/-- C2 counterexample: an eligible note with no `created` metadata and no
recoverable history takes the current-timestamp fallback, so two successive
runs at different times produce different publication dates and different
bytes in the content directory. -/
theorem publish_twice_not_byte_identical :
    (publish_all cfgW envW "2024-01-02 00:00:00+0000" false [noteOkW]
        (publish_all cfgW envW "2024-01-01 00:00:00+0000" false [noteOkW] {})).content ≠
      (publish_all cfgW envW "2024-01-01 00:00:00+0000" false [noteOkW] {}).content := by
  have h1 : (publish_all cfgW envW "2024-01-01 00:00:00+0000" false [noteOkW] {}).content =
      [("other.md",
        "---\nauthor: Kishore Kumar\ndate: 2024-01-01 00:00:00+0000\ndoc: T\ntitle: Other\n---\n")] := by
    rfl
  have h2 : (publish_all cfgW envW "2024-01-02 00:00:00+0000" false [noteOkW]
      (publish_all cfgW envW "2024-01-01 00:00:00+0000" false [noteOkW] {})).content =
      [("other.md",
        "---\nauthor: Kishore Kumar\ndate: 2024-01-02 00:00:00+0000\ndoc: T\ntitle: Other\n---\n")] := by
    rfl
  rw [h1, h2]
  decide

/-- An eligible note with a stable `created` date. -/
def noteC2W : Note :=
  { stem := "Stable", tagsDecl := .strs ["status/evergreen"],
    created? := some (.str "2021-03-05") }

/-- A second eligible note with the same slug as [noteC2W] but a distinct
stable `created` date. -/
def noteC2Wb : Note :=
  { stem := "Stable", tagsDecl := .strs ["status/evergreen"],
    created? := some (.str "2022-07-09") }

/-- C2 witness: with stable `created` dates the two runs agree byte for
byte on the content directory, even though the two eligible notes collide
on the slug `stable` (the last write wins identically in both runs). -/
theorem publish_twice_idempotent_witness :
    (publish_all cfgW envW "NOW2" false [noteC2W, noteC2Wb]
        (publish_all cfgW envW "NOW1" false [noteC2W, noteC2Wb] {})).content =
      (publish_all cfgW envW "NOW1" false [noteC2W, noteC2Wb] {}).content := by
  apply publish_twice_idempotent
  intro n hn
  rw [show [noteC2W, noteC2Wb].filter (fun m =>
    (is_publishable cfgW.required_tags cfgW.excluded_tags m.tagsDecl).1) =
    [noteC2W, noteC2Wb] from rfl] at hn
  rcases List.mem_cons.mp hn with rfl | hn'
  · exact ⟨⟨none, rfl⟩, Or.inl ⟨rfl, trivial⟩⟩
  · rcases List.mem_cons.mp hn' with rfl | hn''
    · exact ⟨⟨none, rfl⟩, Or.inl ⟨rfl, trivial⟩⟩
    · cases hn''
